import Mathlib

/-! StudentGradeManager: record model, roster operations and persistence format

A shallow embedding of `StudentGradeManager.cpp`.

* A `std::string` is the list of its chars (`Str`).
* A stream being read is the text that is still unread; a stream being written
  is the text written so far.
* `std::map<string, double>` is the list of its entries in iteration order
  (strictly ascending keys, `WellFormedMap`).
* `vector<Student*>` is the list of the records it owns; a record's dynamic
  class is `GraduateStudent` exactly when it carries a thesis title.
* The type `double` and its two text conversions (stream insertion with the
  default format, and `std::stod`) are parameters `D`, `showDouble`, `stod`:
  every general theorem holds for whatever the C++ library does there.
* The interactive functions take what they read from `cin` as arguments and
  return the roster together with the outcome they print.
-/

namespace StudentGradeManager

/-- A `std::string`. -/
abbrev Str := List Char

/-! ## Helpers -/

/-- The extraction step of `std::getline(is, item, delim)`: the chars stored in
`item` and the text left unread. The delimiter is consumed and not stored; when
no delimiter is left the whole text is extracted. -/
def readUntil (delim : Char) : Str → Str × Str
  | [] => ([], [])
  | c :: cs =>
    if c = delim then ([], cs)
    else (c :: (readUntil delim cs).1, (readUntil delim cs).2)

/-- The call `std::getline(is, item, delim)` on a stream whose unread text is `ss`:
`none` when the extraction fails (nothing is left to read, the stream turns
false), otherwise the item and the text left unread. -/
def getline (delim : Char) (ss : Str) : Option (Str × Str) :=
  match ss with
  | [] => none
  | _ :: _ => some (readUntil delim ss)

/-- The loop `while (getline(ss, item, delim)) elems.push_back(item);` of `split`.
The first argument bounds the number of iterations. -/
def splitLoop (delim : Char) : Nat → Str → List Str → List Str
  | 0, _, elems => elems
  | fuel + 1, ss, elems =>
    match getline delim ss with
    | none => elems
    | some (item, rest) => splitLoop delim fuel rest (elems ++ [item])

/-- The function `split(s, delim)`. Every iteration consumes at least one char, so
`s.length + 1` iterations are enough (`splitLoop_fuel`). -/
def split (s : Str) (delim : Char) : List Str :=
  splitLoop delim (s.length + 1) s []

/-- The set `" \t\r\n"` used by `trim`. -/
def whitespace : Str := [' ', '\t', '\r', '\n']

/-- Search of `s.find_first_not_of(set)` from index `i` on. -/
def findFirstNotOfFrom (set : Str) : Nat → Str → Option Nat
  | _, [] => none
  | i, c :: cs => if c ∈ set then findFirstNotOfFrom set (i + 1) cs else some i

/-- The call `s.find_first_not_of(set)`; `none` stands for `string::npos`. -/
def find_first_not_of (s set : Str) : Option Nat :=
  findFirstNotOfFrom set 0 s

/-- Search of `s.find_last_not_of(set)`: `last` is the latest hit before index `i`. -/
def findLastNotOfFrom (set : Str) : Nat → Option Nat → Str → Option Nat
  | _, last, [] => last
  | i, last, c :: cs =>
    findLastNotOfFrom set (i + 1) (if c ∈ set then last else some i) cs

/-- The call `s.find_last_not_of(set)`; `none` stands for `string::npos`. -/
def find_last_not_of (s set : Str) : Option Nat :=
  findLastNotOfFrom set 0 none s

/-- The call `s.substr(pos, n)` for `pos ≤ s.size()`. -/
def substr (s : Str) (pos n : Nat) : Str :=
  (s.drop pos).take n

/-- The function `trim(s)`. -/
def trim (s : Str) : Str :=
  match find_first_not_of s whitespace with
  | none => []
  | some start =>
    match find_last_not_of s whitespace with
    | none => []
    | some last => substr s start (last - start + 1)

/-! ## Integers as text (`std::stoi`, `ostream << int`) -/

/-- The largest `int`. -/
def INT_MAX : Int := 2147483647

/-- The smallest `int`. -/
def INT_MIN : Int := -2147483648

/-- The classification `isspace` in the C locale. -/
def isspace (c : Char) : Bool :=
  c = ' ' || c = '\t' || c = '\n' || c = '\x0b' || c = '\x0c' || c = '\r'

/-- The classification `isdigit`. -/
def isdigit (c : Char) : Bool :=
  decide (48 ≤ c.toNat) && decide (c.toNat ≤ 57)

/-- The value of a run of decimal digits, most significant first, continuing
from `acc`. -/
def digitsValue (acc : Nat) : Str → Nat
  | [] => acc
  | c :: cs => digitsValue (acc * 10 + (c.toNat - 48)) cs

/-- The call `std::stoi(str)` (base 10, no position argument): leading white
space is skipped, one sign is accepted, then the longest run of digits is
converted and whatever follows is ignored. `none` stands for the two
exceptions: `invalid_argument` when there is no digit, `out_of_range` when the
value is not an `int`. -/
def stoi (str : Str) : Option Int :=
  let s1 := str.dropWhile isspace
  let neg := decide (s1.head? = some '-')
  let s2 := if s1.head? = some '-' ∨ s1.head? = some '+' then s1.tail else s1
  let ds := s2.takeWhile isdigit
  if ds = [] then none
  else
    let v : Int := if neg then -(digitsValue 0 ds : Int) else (digitsValue 0 ds : Int)
    if INT_MIN ≤ v ∧ v ≤ INT_MAX then some v else none

/-- The text `ostream << n` writes for an `int` holding `n`: decimal digits,
with a leading minus sign for a negative value. -/
def showInt : Int → Str
  | Int.ofNat n => Nat.toDigits 10 n
  | Int.negSucc n => '-' :: Nat.toDigits 10 (n + 1)

/-! ## Classes -/

/-- The order `std::less<std::string>` of the map's keys: lexicographic on the
char codes, a proper initial segment first. -/
def strLt : Str → Str → Bool
  | _, [] => false
  | [], _ :: _ => true
  | a :: as, b :: bs =>
    if a.toNat < b.toNat then true
    else if b.toNat < a.toNat then false
    else strLt as bs

/-- The statement `m[key] = v` on a `std::map<string, D>` given by its entries in
iteration order: the entry of an equivalent key gets the new value, otherwise
the entry is inserted at its place in the order. -/
def mapAssign {D : Type} (m : List (Str × D)) (key : Str) (v : D) : List (Str × D) :=
  match m with
  | [] => [(key, v)]
  | (k, w) :: rest =>
    if strLt key k then (key, v) :: (k, w) :: rest
    else if strLt k key then (k, w) :: mapAssign rest key v
    else (k, v) :: rest

/-- The entries of a `std::map` come in strictly ascending key order. -/
def WellFormedMap {D : Type} (m : List (Str × D)) : Prop :=
  m.Pairwise (fun a b => strLt a.1 b.1 = true)

instance instDecidableWellFormedMap {D : Type} (m : List (Str × D)) :
    Decidable (WellFormedMap m) := by
  unfold WellFormedMap
  exact inferInstance

/-- An object of class `Student` or of its subclass `GraduateStudent`: `name` and
`id` come from `Person`, `grades` from `Student`, and `thesisTitle` is `some`
exactly for a `GraduateStudent`. -/
structure Student (D : Type) where
  name : Str
  id : Int
  grades : List (Str × D)
  thesisTitle : Option Str
deriving DecidableEq

/-- The constructor `Student(name_, id_)`. -/
def Student.new {D : Type} (name : Str) (id : Int) : Student D :=
  { name := name, id := id, grades := [], thesisTitle := none }

/-- The constructor `GraduateStudent(name_, id_, thesis_)`. -/
def GraduateStudent.new {D : Type} (name : Str) (id : Int) (thesis : Str) : Student D :=
  { name := name, id := id, grades := [], thesisTitle := some thesis }

/-- The method `Person::getId`. -/
def Student.getId {D : Type} (self : Student D) : Int := self.id

/-- The method `Person::getName`. -/
def Student.getName {D : Type} (self : Student D) : Str := self.name

/-- The method `Student::addGrade`. -/
def Student.addGrade {D : Type} (self : Student D) (subject : Str) (grade : D) : Student D :=
  { self with grades := mapAssign self.grades subject grade }

/-- The loop of `Student::serializeGrades` over the entries left, with the
flag `first` and the text written to `oss` so far. -/
def serializeLoop {D : Type} (showDouble : D → Str) : List (Str × D) → Bool → Str → Str
  | [], _, oss => oss
  | kv :: rest, first, oss =>
    serializeLoop showDouble rest false
      ((if first then oss else oss ++ [',']) ++ kv.1 ++ [':'] ++ showDouble kv.2)

/-- The text `serializeGrades` writes for one entry of the map. -/
def gradeItem {D : Type} (showDouble : D → Str) (kv : Str × D) : Str :=
  kv.1 ++ [':'] ++ showDouble kv.2

/-- The method `Student::serializeGrades`. -/
def Student.serializeGrades {D : Type} (showDouble : D → Str) (self : Student D) : Str :=
  serializeLoop showDouble self.grades true []

/-- The body of the loop of `Student::deserializeGrades` for one item. -/
def deserializeItem {D : Type} (stod : Str → Option D) (grades : List (Str × D)) (it : Str) :
    List (Str × D) :=
  match split it ':' with
  | [p0, p1] =>
    match stod (trim p1) with
    | some g => mapAssign grades (trim p0) g
    | none => grades
  | _ => grades

/-- The method `Student::deserializeGrades`; `stod` returns `none` where
`std::stod` throws. -/
def Student.deserializeGrades {D : Type} (stod : Str → Option D) (self : Student D) (s : Str) :
    Student D :=
  if s = [] then { self with grades := [] }
  else { self with grades := (split s ',').foldl (deserializeItem stod) [] }

/-- The virtual method `extraInfo`. -/
def Student.extraInfo {D : Type} (self : Student D) : Str :=
  match self.thesisTitle with
  | some thesis => thesis
  | none => []

/-- The virtual method `getType`. -/
def Student.getType {D : Type} (self : Student D) : Str :=
  match self.thesisTitle with
  | some _ => ['G', 'R', 'D']
  | none => ['S', 'T', 'U']

/-! ## Program functions -/

/-- The loop of `findIndexById` from index `i` on, over the records from that
index. The result is an `int`: -1 or the index found, which `static_cast<int>`
leaves as it is for every index below 2^31 (a roster of that many records is
outside the model). -/
def findIndexByIdFrom {D : Type} (id : Int) : Nat → List (Student D) → Int
  | _, [] => -1
  | i, s :: rest => if s.getId = id then (i : Int) else findIndexByIdFrom id (i + 1) rest

/-- The function `findIndexById`. -/
def findIndexById {D : Type} (students : List (Student D)) (id : Int) : Int :=
  findIndexByIdFrom id 0 students

/-- What an interactive roster function reports. -/
inductive Outcome
  | cancelled
  | regularAdded
  | graduateAdded
  | notFound
  | removed
  | gradeSaved
deriving DecidableEq

/-- The function `addStudent` once its input is read: `t` is the kind chosen (1 or
2), `name` and `id` the answers, and `thesis` the line read for a graduate. -/
def addStudent {D : Type} (students : List (Student D)) (t : Int) (name : Str) (id : Int)
    (thesis : Str) : List (Student D) × Outcome :=
  if findIndexById students id ≠ -1 then (students, Outcome.cancelled)
  else if t = 1 then (students ++ [Student.new name id], Outcome.regularAdded)
  else (students ++ [GraduateStudent.new name id thesis], Outcome.graduateAdded)

/-- The function `removeStudent` once the id is read. -/
def removeStudent {D : Type} (students : List (Student D)) (id : Int) :
    List (Student D) × Outcome :=
  let idx := findIndexById students id
  if idx = -1 then (students, Outcome.notFound)
  else (students.eraseIdx idx.toNat, Outcome.removed)

/-- The function `addOrUpdateGrade` once its input is read. -/
def addOrUpdateGrade {D : Type} (students : List (Student D)) (id : Int) (subject : Str)
    (grade : D) : List (Student D) × Outcome :=
  let idx := findIndexById students id
  if idx = -1 then (students, Outcome.notFound)
  else (students.modify (fun s => s.addGrade subject grade) idx.toNat, Outcome.gradeSaved)

/-- The loop of `saveToFile` over the records left, with the text written to
`fout` so far. -/
def saveLoop {D : Type} (showDouble : D → Str) : List (Student D) → Str → Str
  | [], fout => fout
  | s :: rest, fout =>
    saveLoop showDouble rest
      (fout ++ s.getType ++ ['|'] ++ showInt s.getId ++ ['|'] ++ s.getName ++ ['|']
        ++ s.extraInfo ++ ['|'] ++ s.serializeGrades showDouble ++ ['\n'])

/-- The function `saveToFile`: `writable` tells whether the file can be opened
for writing; the result is the returned flag and the text the file then holds. -/
def saveToFile {D : Type} (showDouble : D → Str) (writable : Bool)
    (students : List (Student D)) : Bool × Option Str :=
  if writable then (true, some (saveLoop showDouble students []))
  else (false, none)

/-- The body of the loop of `loadFromFile` for one line: `none` where the
source executes `continue`, otherwise the record it pushes. -/
def loadLine {D : Type} (stod : Str → Option D) (line : Str) : Option (Student D) :=
  if line = [] then none
  else
    match split line '|' with
    | type :: idText :: name :: extra :: gradesStr :: _ =>
      match stoi idText with
      | none => none
      | some id =>
        if type = ['G', 'R', 'D'] then
          some ((GraduateStudent.new name id extra).deserializeGrades stod gradesStr)
        else
          some ((Student.new name id).deserializeGrades stod gradesStr)
    | _ => none

/-- The loop `while (getline(fin, line))` of `loadFromFile`. The first argument
bounds the number of iterations. -/
def loadLoop {D : Type} (stod : Str → Option D) : Nat → Str → List (Student D) → List (Student D)
  | 0, _, students => students
  | fuel + 1, fin, students =>
    match getline '\n' fin with
    | none => students
    | some (line, rest) =>
      match loadLine stod line with
      | none => loadLoop stod fuel rest students
      | some s => loadLoop stod fuel rest (students ++ [s])

/-- The function `loadFromFile`: `file` is the text of the file when it can be
opened for reading; the result is the returned flag and the roster
afterwards. Once the file is open the roster is cleared, so the loop starts
from the empty roster. Every iteration consumes at least one char, so
`text.length + 1` iterations are enough (`loadLoop_fuel`). -/
def loadFromFile {D : Type} (stod : Str → Option D) (file : Option Str)
    (students : List (Student D)) : Bool × List (Student D) :=
  match file with
  | none => (false, students)
  | some text => (true, loadLoop stod (text.length + 1) text [])

/-- A text that neither begins nor ends with a char of the set that `trim`
strips. -/
def noOuterSpace (s : Str) : Bool :=
  !(s.head?.any (fun c => decide (c ∈ whitespace))) &&
    !(s.getLast?.any (fun c => decide (c ∈ whitespace)))

/-- A grade whose text survives `deserializeGrades`: the text written for it is
not empty, holds neither a comma nor a colon, and `std::stod` reads the
trimmed text back to the same grade. -/
def GradeTextReadsBack {D : Type} (showDouble : D → Str) (stod : Str → Option D) (g : D) :
    Prop :=
  showDouble g ≠ [] ∧ (∀ c ∈ showDouble g, c ≠ ',' ∧ c ≠ ':') ∧
    stod (trim (showDouble g)) = some g

instance instDecidableGradeTextReadsBack {D : Type} [DecidableEq D] (showDouble : D → Str)
    (stod : Str → Option D) (g : D) : Decidable (GradeTextReadsBack showDouble stod g) := by
  unfold GradeTextReadsBack
  exact inferInstance

/-- The chars that structure the file: bar, comma, colon and newline. -/
def formatChars : Str := ['|', ',', ':', '\n']

/-- The line `saveToFile` writes for one record, without its newline. -/
def recordLine {D : Type} (showDouble : D → Str) (s : Student D) : Str :=
  s.getType ++ ['|'] ++ showInt s.getId ++ ['|'] ++ s.getName ++ ['|'] ++ s.extraInfo ++ ['|']
    ++ s.serializeGrades showDouble

/-- A record whose line is read back by `loadFromFile`: the id is an `int`; the
name, the thesis title and the subjects hold no format char; the grades are
the entries of a map and there is at least one; no subject begins or ends
with a char that `trim` strips; and the text written for every grade holds no
format char and is read back as that grade. -/
def RecordReadsBack {D : Type} (showDouble : D → Str) (stod : Str → Option D)
    (s : Student D) : Prop :=
  INT_MIN ≤ s.id ∧ s.id ≤ INT_MAX ∧
  (∀ c ∈ s.name, c ∉ formatChars) ∧
  (∀ c ∈ s.extraInfo, c ∉ formatChars) ∧
  s.grades ≠ [] ∧ WellFormedMap s.grades ∧
  (∀ kv ∈ s.grades, (∀ c ∈ kv.1, c ∉ formatChars) ∧ noOuterSpace kv.1 = true ∧
    GradeTextReadsBack showDouble stod kv.2 ∧ (∀ c ∈ showDouble kv.2, c ∉ formatChars))

instance instDecidableRecordReadsBack {D : Type} [DecidableEq D] (showDouble : D → Str)
    (stod : Str → Option D) (s : Student D) : Decidable (RecordReadsBack showDouble stod s) := by
  unfold RecordReadsBack
  exact inferInstance

/-- What one run of `addStudent` reads from `cin`. -/
structure AddInput where
  t : Int
  name : Str
  id : Int
  thesis : Str

/-- The record `addStudent` allocates for an input. -/
def AddInput.record {D : Type} (x : AddInput) : Student D :=
  if x.t = 1 then Student.new x.name x.id else GraduateStudent.new x.name x.id x.thesis

/-- Running `addStudent` once for each input, in order. -/
def addStudents {D : Type} (students : List (Student D)) (inputs : List AddInput) :
    List (Student D) :=
  inputs.foldl (fun st x => (addStudent st x.t x.name x.id x.thesis).1) students

/-- Integer text in the words of the format description: the text is, as a
whole, an optional minus sign followed by one or more digits. -/
def isIntegerText (s : Str) : Bool :=
  let ds := if s.head? = some '-' then s.tail else s
  !ds.isEmpty && ds.all isdigit

/-! ## Whole-number grades

For evaluating examples the grade type is instantiated with whole numbers: a
`double` holding a whole number of magnitude below `10^6` is written by
`ostream <<` with the same digits as an `int`, and `std::stod` reads that text
back to the same value. -/

/-- Stream insertion of a whole-number grade. -/
def showWhole (g : Int) : Str := showInt g

/-- Reading a whole-number grade back. -/
def stodWhole (s : Str) : Option Int := stoi s

/-- The regular student of the format example: id 1, name Ann, grades math -> 90. -/
def exampleAnn : Student Int :=
  (Student.new "Ann".toList 1).addGrade "math".toList 90

/-- The graduate student of the format example: id 2, name Bo, thesis X, no
grades. -/
def exampleBo : Student Int :=
  GraduateStudent.new "Bo".toList 2 "X".toList

/-! ## Observing a map, running the roster functions -/

/-- The grade the map holds for a subject: the lookup `grades.find(subject)`,
`none` when the map has no entry for it. -/
def mapFind {D : Type} (m : List (Str × D)) (key : Str) : Option D :=
  match m with
  | [] => none
  | (k, w) :: rest => if k = key then some w else mapFind rest key

/-- The loop `for (const auto& kv : grades) sum += kv.second;` of
`Student::average`, with the addition of `double` as a parameter. -/
def averageLoop {D : Type} (add : D → D → D) : List (Str × D) → D → D
  | [], sum => sum
  | kv :: rest, sum => averageLoop add rest (add sum kv.2)

/-- The method `Student::average`. The arithmetic of `double` is a parameter:
`zero` is `0.0`, `add` the addition, and `divSize sum n` the quotient
`sum / n` of a `double` by a `size_t`. -/
def Student.average {D : Type} (zero : D) (add : D → D → D) (divSize : D → Nat → D)
    (self : Student D) : D :=
  if self.grades.isEmpty then zero
  else divSize (averageLoop add self.grades zero) self.grades.length

/-- One run of a roster function with the input it reads. -/
inductive RosterOp (D : Type)
  | add (x : AddInput)
  | remove (id : Int)
  | grade (id : Int) (subject : Str) (grade : D)

/-- The roster after one run of `addStudent`, `removeStudent` or
`addOrUpdateGrade`. -/
def applyOp {D : Type} (students : List (Student D)) : RosterOp D → List (Student D)
  | RosterOp.add x => (addStudent students x.t x.name x.id x.thesis).1
  | RosterOp.remove id => (removeStudent students id).1
  | RosterOp.grade id subject grade => (addOrUpdateGrade students id subject grade).1

/-- The roster after a sequence of runs, in order. -/
def runOps {D : Type} (students : List (Student D)) (ops : List (RosterOp D)) :
    List (Student D) :=
  ops.foldl applyOp students

/-- The entry an item of a grade fragment stands for, in the words of the
format description: the item splits on the colon into exactly two pieces and
the second piece, trimmed, is parseable as a number; the subject is the
trimmed first piece and the grade the parsed number. -/
def itemEntry {D : Type} (stod : Str → Option D) (it : Str) : Option (Str × D) :=
  match split it ':' with
  | [p0, p1] => (stod (trim p1)).map (fun g => (trim p0, g))
  | _ => none

/-- A sequence of calls of `addGrade` on one record, each with its subject and
grade, in order. -/
def addGrades {D : Type} (self : Student D) (calls : List (Str × D)) : Student D :=
  calls.foldl (fun s c => s.addGrade c.1 c.2) self

/-! ## `getline` and `split` -/

theorem readUntil_snd_length (delim : Char) (ss : Str) :
    (readUntil delim ss).2.length ≤ ss.length := by
  induction ss with
  | nil => simp [readUntil]
  | cons c cs ih =>
    by_cases h : c = delim
    · simp [readUntil, h]
    · simp only [readUntil, h, if_false, List.length_cons]
      omega

theorem getline_length {delim : Char} {ss item rest : Str}
    (h : getline delim ss = some (item, rest)) : rest.length < ss.length := by
  cases ss with
  | nil => simp [getline] at h
  | cons c cs =>
    simp only [getline, Option.some.injEq] at h
    have hl := readUntil_snd_length delim cs
    by_cases hc : c = delim
    · simp [readUntil, hc] at h
      simp [← h.2]
    · simp only [readUntil, hc, if_false, Prod.mk.injEq] at h
      rw [← h.2]
      simp only [List.length_cons]
      omega

theorem splitLoop_acc (delim : Char) (fuel : Nat) (ss : Str) (elems : List Str) :
    splitLoop delim fuel ss elems = elems ++ splitLoop delim fuel ss [] := by
  induction fuel generalizing ss elems with
  | zero => simp [splitLoop]
  | succ n ih =>
    simp only [splitLoop]
    cases hg : getline delim ss with
    | none => simp
    | some p =>
      obtain ⟨item, rest⟩ := p
      simp only
      rw [ih rest (elems ++ [item]), ih rest ([] ++ [item])]
      simp

/-- The iteration bound of `split` is never reached: any bound above the length
of the text gives the same result. -/
theorem splitLoop_fuel (delim : Char) (f1 f2 : Nat) (ss : Str)
    (h1 : ss.length < f1) (h2 : ss.length < f2) :
    splitLoop delim f1 ss [] = splitLoop delim f2 ss [] := by
  induction f1 generalizing f2 ss with
  | zero => omega
  | succ n ih =>
    cases f2 with
    | zero => omega
    | succ m =>
      simp only [splitLoop]
      cases hg : getline delim ss with
      | none => rfl
      | some p =>
        obtain ⟨item, rest⟩ := p
        have hl := getline_length hg
        simp only
        rw [splitLoop_acc delim n, splitLoop_acc delim m, ih m rest (by omega) (by omega)]

theorem split_nil (delim : Char) : split [] delim = [] := by
  simp [split, splitLoop, getline]

theorem splitLoop_succ (delim : Char) (fuel : Nat) (ss : Str) (elems : List Str)
    (item rest : Str) (hg : getline delim ss = some (item, rest)) :
    splitLoop delim (fuel + 1) ss elems = splitLoop delim fuel rest (elems ++ [item]) := by
  simp [splitLoop, hg]

theorem split_cons (delim : Char) (c : Char) (cs : Str) :
    split (c :: cs) delim
      = (readUntil delim (c :: cs)).1 :: split (readUntil delim (c :: cs)).2 delim := by
  have hg : getline delim (c :: cs)
      = some ((readUntil delim (c :: cs)).1, (readUntil delim (c :: cs)).2) := rfl
  have hl := getline_length hg
  rw [split, splitLoop_succ delim _ _ _ _ _ hg, splitLoop_acc, split]
  simp only [List.nil_append, List.singleton_append, List.cons.injEq, true_and]
  exact splitLoop_fuel delim _ _ _ hl (by omega)

theorem readUntil_append (delim : Char) (a b : Str) (ha : delim ∉ a) :
    readUntil delim (a ++ delim :: b) = (a, b) := by
  induction a with
  | nil => simp [readUntil]
  | cons c cs ih =>
    have hc : c ≠ delim := fun h => ha (by simp [h])
    have hcs : delim ∉ cs := fun h => ha (by simp [h])
    simp [readUntil, hc, ih hcs]

theorem readUntil_no_delim (delim : Char) (a : Str) (ha : delim ∉ a) :
    readUntil delim a = (a, []) := by
  induction a with
  | nil => simp [readUntil]
  | cons c cs ih =>
    have hc : c ≠ delim := fun h => ha (by simp [h])
    have hcs : delim ∉ cs := fun h => ha (by simp [h])
    simp [readUntil, hc, ih hcs]

theorem split_append_delim (delim : Char) (a b : Str) (ha : delim ∉ a) :
    split (a ++ delim :: b) delim = a :: split b delim := by
  cases a with
  | nil => simp [split_cons, readUntil]
  | cons c cs =>
    have h := readUntil_append delim (c :: cs) b ha
    simp only [List.cons_append] at h
    simp [split_cons, h]

theorem split_no_delim (delim : Char) (a : Str) (ha : delim ∉ a) (hne : a ≠ []) :
    split a delim = [a] := by
  cases a with
  | nil => exact absurd rfl hne
  | cons c cs =>
    simp [split_cons, readUntil_no_delim delim (c :: cs) ha, split_nil]

/-! ## The loop of `loadFromFile` -/

theorem loadLoop_acc {D : Type} (stod : Str → Option D) (fuel : Nat) (fin : Str)
    (students : List (Student D)) :
    loadLoop stod fuel fin students = students ++ loadLoop stod fuel fin [] := by
  induction fuel generalizing fin students with
  | zero => simp [loadLoop]
  | succ n ih =>
    simp only [loadLoop]
    cases hg : getline '\n' fin with
    | none => simp
    | some p =>
      obtain ⟨line, rest⟩ := p
      simp only
      cases hl : loadLine stod line with
      | none => exact ih rest students
      | some s =>
        simp only
        rw [ih rest (students ++ [s]), ih rest ([] ++ [s])]
        simp

/-- The iteration bound of `loadFromFile` is never reached: with any bound above
the length of the text, the loop pushes the record of every line of the text,
in order. -/
theorem loadLoop_fuel {D : Type} (stod : Str → Option D) (fuel : Nat) (fin : Str)
    (h : fin.length < fuel) :
    loadLoop stod fuel fin [] = (split fin '\n').filterMap (loadLine stod) := by
  induction fuel generalizing fin with
  | zero => omega
  | succ n ih =>
    cases fin with
    | nil => simp [loadLoop, getline, split_nil]
    | cons c cs =>
      have hg : getline '\n' (c :: cs)
          = some ((readUntil '\n' (c :: cs)).1, (readUntil '\n' (c :: cs)).2) := rfl
      have hl := getline_length hg
      have hrest := ih (readUntil '\n' (c :: cs)).2 (by omega)
      rw [split_cons]
      simp only [loadLoop, hg, List.filterMap_cons]
      cases hr : loadLine stod (readUntil '\n' (c :: cs)).1 with
      | none => simpa using hrest
      | some s =>
        simp only
        rw [loadLoop_acc, hrest]
        simp

theorem loadFromFile_some {D : Type} (stod : Str → Option D) (text : Str)
    (students : List (Student D)) :
    loadFromFile stod (some text) students
      = (true, (split text '\n').filterMap (loadLine stod)) := by
  simp [loadFromFile, loadLoop_fuel stod (text.length + 1) text (by omega)]

/-! ## Linear search -/

theorem findIndexByIdFrom_eq {D : Type} (id : Int) (i : Nat) (students : List (Student D)) :
    findIndexByIdFrom id i students
      = if students.findIdx (fun s => decide (s.getId = id)) < students.length
        then ((i + students.findIdx (fun s => decide (s.getId = id)) : Nat) : Int)
        else -1 := by
  induction students generalizing i with
  | nil => simp [findIndexByIdFrom]
  | cons s rest ih =>
    by_cases h : s.getId = id
    · simp [findIndexByIdFrom, h, List.findIdx_cons]
    · simp only [findIndexByIdFrom, h, if_false, List.findIdx_cons, decide_False, cond_false,
        List.length_cons, Nat.add_lt_add_iff_right, ih (i + 1)]
      split
      · congr 1
        omega
      · rfl

theorem findIndexById_eq_neg_one {D : Type} (students : List (Student D)) (id : Int) :
    findIndexById students id = -1 ↔ ∀ s ∈ students, s.getId ≠ id := by
  rw [findIndexById, findIndexByIdFrom_eq]
  split
  · rename_i h
    constructor
    · intro h1
      omega
    · intro h1
      exfalso
      obtain ⟨s, hs, hp⟩ := List.findIdx_lt_length.mp h
      exact h1 s hs (by simpa using hp)
  · rename_i h
    simp only [true_iff]
    intro s hs hid
    exact h (List.findIdx_lt_length.mpr ⟨s, hs, by simpa using hid⟩)

theorem findIndexById_of_first {D : Type} (students : List (Student D)) (id : Int) (k : Nat)
    (hk : k < students.length) (hid : (students.get ⟨k, hk⟩).getId = id)
    (hbefore : ∀ j (hj : j < students.length), j < k → (students.get ⟨j, hj⟩).getId ≠ id) :
    findIndexById students id = (k : Int) := by
  have hidx : students.findIdx (fun s => decide (s.getId = id)) = k := by
    rw [List.findIdx_eq hk]
    refine ⟨by simpa using hid, ?_⟩
    intro j hjk
    simpa using hbefore j (by omega) hjk
  rw [findIndexById, findIndexByIdFrom_eq, hidx]
  simp [hk]

/-! ## `std::stoi` and the text of an `int` -/

theorem digitChar_toNat (d : Nat) (h : d < 10) : (Nat.digitChar d).toNat = 48 + d := by
  interval_cases d <;> rfl

theorem digitsValue_nil (acc : Nat) : digitsValue acc [] = acc := rfl

theorem digitsValue_cons (acc : Nat) (c : Char) (cs : Str) :
    digitsValue acc (c :: cs) = digitsValue (acc * 10 + (c.toNat - 48)) cs := rfl

theorem digitsValue_append (acc : Nat) (x y : Str) :
    digitsValue acc (x ++ y) = digitsValue (digitsValue acc x) y := by
  induction x generalizing acc with
  | nil => rfl
  | cons c cs ih => exact ih (acc * 10 + (c.toNat - 48))

theorem toDigitsCore_acc (fuel n : Nat) (ds : Str) :
    Nat.toDigitsCore 10 fuel n ds = Nat.toDigitsCore 10 fuel n [] ++ ds := by
  induction fuel generalizing n ds with
  | zero => simp [Nat.toDigitsCore]
  | succ f ih =>
    simp only [Nat.toDigitsCore]
    split
    · simp
    · rw [ih (n / 10) (Nat.digitChar (n % 10) :: ds), ih (n / 10) [Nat.digitChar (n % 10)]]
      simp

theorem toDigitsCore_spec (fuel n : Nat) (h : n < fuel) :
    Nat.toDigitsCore 10 fuel n [] ≠ [] ∧
    (∀ c ∈ Nat.toDigitsCore 10 fuel n [], isdigit c = true) ∧
    digitsValue 0 (Nat.toDigitsCore 10 fuel n []) = n := by
  induction fuel generalizing n with
  | zero => omega
  | succ f ih =>
    have hd : n % 10 < 10 := Nat.mod_lt _ (by decide)
    have hc := digitChar_toNat (n % 10) hd
    have hdig : isdigit (Nat.digitChar (n % 10)) = true := by
      simp only [isdigit, hc, Bool.and_eq_true, decide_eq_true_eq]
      omega
    simp only [Nat.toDigitsCore]
    split
    · rename_i h0
      refine ⟨by simp, by simpa using hdig, ?_⟩
      rw [digitsValue_cons, digitsValue_nil, hc]
      omega
    · rename_i h0
      rw [toDigitsCore_acc]
      obtain ⟨h1, h2, h3⟩ := ih (n / 10) (by omega)
      refine ⟨by simp, ?_, ?_⟩
      · intro c hcm
        rcases List.mem_append.mp hcm with hcm | hcm
        · exact h2 c hcm
        · simp only [List.mem_singleton] at hcm
          rw [hcm]
          exact hdig
      · rw [digitsValue_append, h3, digitsValue_cons, digitsValue_nil, hc]
        omega

theorem toDigits_spec (n : Nat) :
    Nat.toDigits 10 n ≠ [] ∧ (∀ c ∈ Nat.toDigits 10 n, isdigit c = true) ∧
    digitsValue 0 (Nat.toDigits 10 n) = n :=
  toDigitsCore_spec (n + 1) n (by omega)

theorem dropWhile_isspace_append (ws x : Str) (hws : ∀ c ∈ ws, isspace c = true)
    (hx : ∀ c, x.head? = some c → isspace c = false) :
    (ws ++ x).dropWhile isspace = x := by
  induction ws with
  | nil =>
    cases x with
    | nil => rfl
    | cons c cs => simp [List.dropWhile, hx c rfl]
  | cons w ws ih =>
    simp only [List.cons_append, List.dropWhile, hws w (by simp)]
    exact ih (fun c hc => hws c (by simp [hc]))

theorem takeWhile_isdigit_append (digits rest : Str) (hd : ∀ c ∈ digits, isdigit c = true)
    (hr : ∀ c, rest.head? = some c → isdigit c = false) :
    (digits ++ rest).takeWhile isdigit = digits := by
  induction digits with
  | nil =>
    cases rest with
    | nil => rfl
    | cons c cs => simp [List.takeWhile, hr c rfl]
  | cons d ds ih =>
    rw [List.cons_append, List.takeWhile_cons, hd d (by simp)]
    simp only [if_true, List.cons.injEq, true_and]
    exact ih (fun c hc => hd c (by simp [hc]))

theorem isdigit_not_isspace (c : Char) (h : isdigit c = true) : isspace c = false := by
  simp only [isdigit, Bool.and_eq_true, decide_eq_true_eq] at h
  have h1 : c ≠ ' ' := by rintro rfl; revert h; decide
  have h2 : c ≠ '\t' := by rintro rfl; revert h; decide
  have h3 : c ≠ '\n' := by rintro rfl; revert h; decide
  have h4 : c ≠ '\x0b' := by rintro rfl; revert h; decide
  have h5 : c ≠ '\x0c' := by rintro rfl; revert h; decide
  have h6 : c ≠ '\r' := by rintro rfl; revert h; decide
  simp [isspace, h1, h2, h3, h4, h5, h6]

theorem isdigit_ne_sign (c : Char) (h : isdigit c = true) : c ≠ '-' ∧ c ≠ '+' := by
  simp only [isdigit, Bool.and_eq_true, decide_eq_true_eq] at h
  constructor
  · rintro rfl; revert h; decide
  · rintro rfl; revert h; decide

/-- What `std::stoi` accepts: white space, then an optional sign, then a run of
at least one digit, then anything that does not continue the run. The value
is that of the digits with the sign, and the call throws when it is not an
`int`. -/
theorem stoi_of_parts (ws digits rest : Str) (sign : Option Char)
    (hws : ∀ c ∈ ws, isspace c = true)
    (hsign : sign = none ∨ sign = some '-' ∨ sign = some '+')
    (hne : digits ≠ []) (hd : ∀ c ∈ digits, isdigit c = true)
    (hr : ∀ c, rest.head? = some c → isdigit c = false) :
    stoi (ws ++ sign.toList ++ digits ++ rest)
      = if INT_MIN ≤ (if sign = some '-' then -(digitsValue 0 digits : Int)
              else (digitsValue 0 digits : Int)) ∧
            (if sign = some '-' then -(digitsValue 0 digits : Int)
              else (digitsValue 0 digits : Int)) ≤ INT_MAX
        then some (if sign = some '-' then -(digitsValue 0 digits : Int)
              else (digitsValue 0 digits : Int))
        else none := by
  obtain ⟨d, ds, rfl⟩ := List.exists_cons_of_ne_nil hne
  have hdd := hd d (by simp)
  have hdrop : (ws ++ sign.toList ++ (d :: ds) ++ rest).dropWhile isspace
      = sign.toList ++ (d :: ds) ++ rest := by
    rw [List.append_assoc, List.append_assoc]
    rw [dropWhile_isspace_append ws _ hws]
    · simp
    · intro c hc
      rcases hsign with h | h | h <;> subst h <;> simp at hc <;> subst hc
      · exact isdigit_not_isspace _ hdd
      · decide
      · decide
  have htake : (d :: (ds ++ rest)).takeWhile isdigit = d :: ds := by
    simpa using takeWhile_isdigit_append (d :: ds) rest hd hr
  have hds := isdigit_ne_sign d hdd
  unfold stoi
  simp only [hdrop]
  rcases hsign with h | h | h <;> subst h
  · simp [htake, hds.1, hds.2, hdd]
  · simp [htake, hdd]
  · simp [htake, hdd]

theorem stoi_showInt (n : Int) (h1 : INT_MIN ≤ n) (h2 : n ≤ INT_MAX) :
    stoi (showInt n) = some n := by
  cases n with
  | ofNat m =>
    obtain ⟨hne, hd, hv⟩ := toDigits_spec m
    have h := stoi_of_parts [] (Nat.toDigits 10 m) [] none (by simp) (by simp) hne hd (by simp)
    simp only [List.nil_append, Option.toList_none, List.append_nil, hv] at h
    simp only [showInt, h]
    simp at h1 h2 ⊢
    exact ⟨h1, h2⟩
  | negSucc m =>
    obtain ⟨hne, hd, hv⟩ := toDigits_spec (m + 1)
    have h := stoi_of_parts [] (Nat.toDigits 10 (m + 1)) [] (some '-') (by simp) (by simp)
      hne hd (by simp)
    simp only [List.nil_append, Option.toList_some, List.append_nil, hv] at h
    simp only [showInt, List.singleton_append] at h ⊢
    rw [h]
    have e : (-((m + 1 : Nat) : Int)) = Int.negSucc m := by
      simp [Int.negSucc_eq]
    simp only [if_true, e]
    simp [h1, h2]

theorem head_dropWhile_false (p : Char → Bool) (l : Str) :
    ∀ c, (l.dropWhile p).head? = some c → p c = false := by
  intro c hc
  have h := List.head?_dropWhile_not p l
  rw [hc] at h
  exact h

/-- The texts `std::stoi` accepts, and the value it returns for them. -/
theorem stoi_eq_some_iff (s : Str) (n : Int) :
    stoi s = some n ↔
      ∃ (ws digits rest : Str) (sign : Option Char),
        s = ws ++ sign.toList ++ digits ++ rest ∧
        (∀ c ∈ ws, isspace c = true) ∧
        (sign = none ∨ sign = some '-' ∨ sign = some '+') ∧
        digits ≠ [] ∧ (∀ c ∈ digits, isdigit c = true) ∧
        (∀ c, rest.head? = some c → isdigit c = false) ∧
        n = (if sign = some '-' then -(digitsValue 0 digits : Int)
              else (digitsValue 0 digits : Int)) ∧
        INT_MIN ≤ n ∧ n ≤ INT_MAX := by
  constructor
  · intro h
    have hs : s = s.takeWhile isspace ++ s.dropWhile isspace :=
      (List.takeWhile_append_dropWhile isspace s).symm
    have hws : ∀ c ∈ s.takeWhile isspace, isspace c = true :=
      fun c hc => List.mem_takeWhile_imp hc
    unfold stoi at h
    simp only at h
    generalize s.dropWhile isspace = s1 at h hs
    by_cases hneg : s1.head? = some '-'
    · obtain ⟨r, rfl⟩ : ∃ r, s1 = '-' :: r := by
        cases s1 with
        | nil => simp at hneg
        | cons c r => simp at hneg; exact ⟨r, by rw [hneg]⟩
      simp only [List.head?_cons, true_or, if_true, List.tail_cons, decide_True] at h
      split at h
      · exact Option.noConfusion h
      · rename_i hds
        split at h
        · rename_i hrange
          simp only [Option.some.injEq] at h
          refine ⟨s.takeWhile isspace, r.takeWhile isdigit, r.dropWhile isdigit, some '-',
            ?_, hws, Or.inr (Or.inl rfl), hds, fun c hc => List.mem_takeWhile_imp hc,
            head_dropWhile_false isdigit r, ?_, ?_, ?_⟩
          · rw [List.append_assoc, List.append_assoc, List.takeWhile_append_dropWhile]
            exact hs
          · simp [← h]
          · rw [← h]; exact hrange.1
          · rw [← h]; exact hrange.2
        · exact Option.noConfusion h
    · by_cases hpos : s1.head? = some '+'
      · obtain ⟨r, rfl⟩ : ∃ r, s1 = '+' :: r := by
          cases s1 with
          | nil => simp at hpos
          | cons c r => simp at hpos; exact ⟨r, by rw [hpos]⟩
        simp only [List.head?_cons, Option.some.injEq, or_true, if_true, List.tail_cons] at h
        have hd : decide (('+' : Char) = '-') = false := by decide
        simp only [hd, Bool.false_eq_true, if_false] at h
        split at h
        · exact Option.noConfusion h
        · rename_i hds
          split at h
          · rename_i hrange
            simp only [Option.some.injEq] at h
            refine ⟨s.takeWhile isspace, r.takeWhile isdigit, r.dropWhile isdigit, some '+',
              ?_, hws, Or.inr (Or.inr rfl), hds, fun c hc => List.mem_takeWhile_imp hc,
              head_dropWhile_false isdigit r, ?_, ?_, ?_⟩
            · rw [List.append_assoc, List.append_assoc, List.takeWhile_append_dropWhile]
              exact hs
            · have hne : ¬ (some '+' = some '-') := by decide
              simp only [hne, if_false]
              exact h.symm
            · rw [← h]; exact hrange.1
            · rw [← h]; exact hrange.2
          · exact Option.noConfusion h
      · simp only [hneg, hpos, or_self, if_false, decide_False, Bool.false_eq_true] at h
        split at h
        · exact Option.noConfusion h
        · rename_i hds
          split at h
          · rename_i hrange
            simp only [Option.some.injEq] at h
            refine ⟨s.takeWhile isspace, s1.takeWhile isdigit, s1.dropWhile isdigit, none,
              ?_, hws, Or.inl rfl, hds, fun c hc => List.mem_takeWhile_imp hc,
              head_dropWhile_false isdigit s1, ?_, ?_, ?_⟩
            · rw [Option.toList_none, List.append_nil, List.append_assoc,
                List.takeWhile_append_dropWhile]
              exact hs
            · simp [← h]
            · rw [← h]; exact hrange.1
            · rw [← h]; exact hrange.2
          · exact Option.noConfusion h
  · rintro ⟨ws, digits, rest, sign, rfl, hws, hsign, hne, hd, hr, hn, h1, h2⟩
    rw [stoi_of_parts ws digits rest sign hws hsign hne hd hr, ← hn]
    simp [h1, h2]

/-! ## `trim` -/

theorem findLastNotOfFrom_last (set : Str) (i : Nat) (last : Option Nat) (s : Str)
    (hne : s ≠ []) (hl : s.getLast hne ∉ set) :
    findLastNotOfFrom set i last s = some (i + s.length - 1) := by
  induction s generalizing i last with
  | nil => exact absurd rfl hne
  | cons c cs ih =>
    cases cs with
    | nil =>
      simp only [List.getLast_singleton] at hl
      simp [findLastNotOfFrom, hl]
    | cons d ds =>
      have hl' : (d :: ds).getLast (by simp) ∉ set := by
        simpa [List.getLast_cons] using hl
      rw [findLastNotOfFrom, ih (i + 1) _ (by simp) hl']
      simp only [List.length_cons, Option.some.injEq]
      omega

theorem trim_of_noOuterSpace (s : Str) (h : noOuterSpace s = true) : trim s = s := by
  cases s with
  | nil => rfl
  | cons c cs =>
    have hne : c :: cs ≠ [] := by simp
    simp only [noOuterSpace, List.head?_cons, Option.any_some, Bool.and_eq_true,
      Bool.not_eq_true', decide_eq_false_iff_not, List.getLast?_eq_getLast _ hne] at h
    have hfirst : find_first_not_of (c :: cs) whitespace = some 0 := by
      simp [find_first_not_of, findFirstNotOfFrom, h.1]
    have hlast : find_last_not_of (c :: cs) whitespace = some cs.length := by
      rw [find_last_not_of, findLastNotOfFrom_last whitespace 0 none (c :: cs) hne h.2]
      simp
    simp only [trim, hfirst, hlast, substr, List.drop_zero, Nat.sub_zero]
    exact List.take_length (c :: cs)

/-! ## The map of grades -/

theorem strLt_asymm (a b : Str) (h : strLt a b = true) : strLt b a = false := by
  induction a generalizing b with
  | nil =>
    cases b with
    | nil => simp [strLt] at h
    | cons y ys => simp [strLt]
  | cons x xs ih =>
    cases b with
    | nil => simp [strLt] at h
    | cons y ys =>
      simp only [strLt] at h ⊢
      by_cases h1 : x.toNat < y.toNat
      · have h2 : ¬ y.toNat < x.toNat := by omega
        simp [h1, h2]
      · by_cases h2 : y.toNat < x.toNat
        · simp [h1, h2] at h
        · simp only [h1, h2, if_false] at h ⊢
          exact ih ys h

theorem mapAssign_last {D : Type} (m : List (Str × D)) (key : Str) (v : D)
    (h : ∀ kv ∈ m, strLt kv.1 key = true) : mapAssign m key v = m ++ [(key, v)] := by
  induction m with
  | nil => rfl
  | cons kv rest ih =>
    obtain ⟨k, w⟩ := kv
    have h1 : strLt k key = true := h (k, w) (by simp)
    have h2 : strLt key k = false := strLt_asymm k key h1
    simp only [mapAssign, h1, h2, if_true, List.cons_append, Bool.false_eq_true, if_false]
    rw [ih (fun kv hkv => h kv (by simp [hkv]))]

theorem foldl_mapAssign_sorted {D : Type} (acc l : List (Str × D))
    (h : WellFormedMap (acc ++ l)) :
    l.foldl (fun m kv => mapAssign m kv.1 kv.2) acc = acc ++ l := by
  induction l generalizing acc with
  | nil => simp
  | cons kv rest ih =>
    have h' : WellFormedMap ((acc ++ [kv]) ++ rest) := by simpa using h
    have hlt : ∀ a ∈ acc, strLt a.1 kv.1 = true := by
      intro a ha
      have := (List.pairwise_append.mp h).2.2 a ha kv (by simp)
      exact this
    rw [List.foldl_cons, mapAssign_last acc kv.1 kv.2 hlt, ih (acc ++ [kv]) h']
    simp

/-! ## The map stays a map -/

theorem strLt_trans (a b c : Str) (hab : strLt a b = true) (hbc : strLt b c = true) :
    strLt a c = true := by
  induction a generalizing b c with
  | nil =>
    cases c with
    | nil =>
      cases b with
      | nil => simp [strLt] at hab
      | cons y ys => simp [strLt] at hbc
    | cons z zs => simp [strLt]
  | cons x xs ih =>
    cases b with
    | nil => simp [strLt] at hab
    | cons y ys =>
      cases c with
      | nil => simp [strLt] at hbc
      | cons z zs =>
        simp only [strLt] at hab hbc ⊢
        by_cases h1 : x.toNat < y.toNat
        · by_cases h2 : y.toNat < z.toNat
          · have h3 : x.toNat < z.toNat := by omega
            simp [h3]
          · by_cases h2' : z.toNat < y.toNat
            · simp [h2, h2'] at hbc
            · have h3 : x.toNat < z.toNat := by omega
              simp [h3]
        · by_cases h1' : y.toNat < x.toNat
          · simp [h1, h1'] at hab
          · simp only [h1, h1', if_false] at hab
            by_cases h2 : y.toNat < z.toNat
            · have h3 : x.toNat < z.toNat := by omega
              simp [h3]
            · by_cases h2' : z.toNat < y.toNat
              · simp [h2, h2'] at hbc
              · simp only [h2, h2', if_false] at hbc
                have h3 : ¬ x.toNat < z.toNat := by omega
                have h4 : ¬ z.toNat < x.toNat := by omega
                simp only [h3, h4, if_false]
                exact ih ys zs hab hbc

theorem strLt_total (a b : Str) (h1 : strLt a b = false) (h2 : strLt b a = false) : a = b := by
  induction a generalizing b with
  | nil =>
    cases b with
    | nil => rfl
    | cons y ys => simp [strLt] at h1
  | cons x xs ih =>
    cases b with
    | nil => simp [strLt] at h2
    | cons y ys =>
      simp only [strLt] at h1 h2
      by_cases hxy : x.toNat < y.toNat
      · simp [hxy] at h1
      · by_cases hyx : y.toNat < x.toNat
        · simp [hyx] at h2
        · simp only [hxy, hyx, if_false] at h1 h2
          have hx : x = y := by
            rw [← Char.ofNat_toNat x, ← Char.ofNat_toNat y, show x.toNat = y.toNat by omega]
          rw [hx, ih ys h1 h2]

theorem mem_mapAssign {D : Type} (m : List (Str × D)) (key : Str) (v : D) (kv : Str × D)
    (h : kv ∈ mapAssign m key v) : kv.1 = key ∨ kv ∈ m := by
  induction m with
  | nil =>
    rw [mapAssign, List.mem_singleton] at h
    exact Or.inl (by rw [h])
  | cons e rest ih =>
    obtain ⟨k, w⟩ := e
    rw [mapAssign] at h
    by_cases h1 : strLt key k = true
    · rw [if_pos h1] at h
      rcases List.mem_cons.mp h with h' | h'
      · exact Or.inl (by rw [h'])
      · exact Or.inr h'
    · by_cases h2 : strLt k key = true
      · rw [if_neg h1, if_pos h2] at h
        rcases List.mem_cons.mp h with h' | h'
        · exact Or.inr (by rw [h']; exact List.mem_cons_self _ _)
        · rcases ih h' with h'' | h''
          · exact Or.inl h''
          · exact Or.inr (List.mem_cons_of_mem _ h'')
      · rw [if_neg h1, if_neg h2] at h
        have hk : key = k :=
          strLt_total key k (by simpa using h1) (by simpa using h2)
        rcases List.mem_cons.mp h with h' | h'
        · exact Or.inl (by rw [h', hk])
        · exact Or.inr (List.mem_cons_of_mem _ h')

/-- The statement `m[key] = v` keeps the entries in strictly ascending key order. -/
theorem mapAssign_wellFormed {D : Type} (m : List (Str × D)) (key : Str) (v : D)
    (h : WellFormedMap m) : WellFormedMap (mapAssign m key v) := by
  unfold WellFormedMap at h ⊢
  induction m with
  | nil => simp [mapAssign]
  | cons e rest ih =>
    obtain ⟨k, w⟩ := e
    rw [List.pairwise_cons] at h
    simp only [mapAssign]
    by_cases h1 : strLt key k = true
    · simp only [h1, if_true]
      refine List.Pairwise.cons ?_ (List.Pairwise.cons h.1 h.2)
      intro b hb
      rcases List.mem_cons.mp hb with hb | hb
      · rw [hb]; exact h1
      · exact strLt_trans key k b.1 h1 (h.1 b hb)
    · by_cases h2 : strLt k key = true
      · simp only [h1, h2, if_true, if_false]
        refine List.Pairwise.cons ?_ (ih h.2)
        intro b hb
        rcases mem_mapAssign rest key v b hb with hb | hb
        · rw [hb]; exact h2
        · exact h.1 b hb
      · simp only [h1, h2, if_false]
        exact List.Pairwise.cons h.1 h.2

theorem foldl_deserializeItem_wellFormed {D : Type} (stod : Str → Option D) (items : List Str)
    (acc : List (Str × D)) (h : WellFormedMap acc) :
    WellFormedMap (items.foldl (deserializeItem stod) acc) := by
  induction items generalizing acc with
  | nil => exact h
  | cons it rest ih =>
    rw [List.foldl_cons]
    apply ih
    unfold deserializeItem
    split
    · split
      · exact mapAssign_wellFormed _ _ _ h
      · exact h
    · exact h

/-- Every grade map the program builds is a map: the constructors start from the
empty map, and `addGrade` and `deserializeGrades` keep the entries in strictly
ascending key order. -/
theorem grades_wellFormed {D : Type} (stod : Str → Option D) (s : Student D) :
    (∀ (name : Str) (id : Int) (thesis : Str),
      WellFormedMap (Student.new name id : Student D).grades ∧
      WellFormedMap (GraduateStudent.new name id thesis : Student D).grades) ∧
    (∀ (subject : Str) (grade : D), WellFormedMap s.grades →
      WellFormedMap (s.addGrade subject grade).grades) ∧
    (∀ text : Str, WellFormedMap (s.deserializeGrades stod text).grades) := by
  refine ⟨fun name id thesis => ⟨List.Pairwise.nil, List.Pairwise.nil⟩,
    fun subject grade h => mapAssign_wellFormed _ _ _ h, fun text => ?_⟩
  unfold Student.deserializeGrades
  split
  · exact List.Pairwise.nil
  · exact foldl_deserializeItem_wellFormed stod _ [] List.Pairwise.nil

/-! ## The grade fragment -/

theorem serializeLoop_rest {D : Type} (showDouble : D → Str) (l : List (Str × D)) (oss : Str) :
    serializeLoop showDouble l false oss
      = oss ++ l.flatMap (fun kv => ',' :: gradeItem showDouble kv) := by
  induction l generalizing oss with
  | nil => simp [serializeLoop]
  | cons kv rest ih =>
    rw [serializeLoop, ih]
    simp [gradeItem, List.flatMap_cons]

theorem serializeLoop_first {D : Type} (showDouble : D → Str) (kv : Str × D)
    (rest : List (Str × D)) :
    serializeLoop showDouble (kv :: rest) true []
      = gradeItem showDouble kv ++ rest.flatMap (fun kv => ',' :: gradeItem showDouble kv) := by
  rw [serializeLoop, serializeLoop_rest]
  simp [gradeItem]

theorem split_items (delim : Char) (x : Str) (items : List Str) (hx : delim ∉ x)
    (hxne : x ≠ []) (hitems : ∀ y ∈ items, delim ∉ y ∧ y ≠ []) :
    split (x ++ items.flatMap (fun y => delim :: y)) delim = x :: items := by
  induction items generalizing x with
  | nil => simpa using split_no_delim delim x hx hxne
  | cons y ys ih =>
    have hy := hitems y (by simp)
    rw [List.flatMap_cons, List.cons_append, split_append_delim delim x _ hx,
      ih y hy.1 hy.2 (fun z hz => hitems z (by simp [hz]))]

theorem flatMap_gradeItem {D : Type} (showDouble : D → Str) (l : List (Str × D)) :
    l.flatMap (fun kv => ',' :: gradeItem showDouble kv)
      = (l.map (gradeItem showDouble)).flatMap (fun y => ',' :: y) := by
  induction l with
  | nil => rfl
  | cons kv rest ih => simp [List.flatMap_cons, ih]

theorem gradeItem_ok {D : Type} (showDouble : D → Str) (stod : Str → Option D) (kv : Str × D)
    (hk : ∀ c ∈ kv.1, c ≠ ',' ∧ c ≠ ':')
    (hg : GradeTextReadsBack showDouble stod kv.2) :
    ',' ∉ gradeItem showDouble kv ∧ gradeItem showDouble kv ≠ [] := by
  constructor
  · intro hmem
    simp only [gradeItem, List.append_assoc, List.singleton_append, List.mem_append,
      List.mem_cons] at hmem
    rcases hmem with h | h | h
    · exact (hk _ h).1 rfl
    · exact absurd h (by decide)
    · exact (hg.2.1 _ h).1 rfl
  · simp [gradeItem]

theorem deserializeItem_gradeItem {D : Type} (showDouble : D → Str) (stod : Str → Option D)
    (grades : List (Str × D)) (kv : Str × D)
    (hk : ∀ c ∈ kv.1, c ≠ ',' ∧ c ≠ ':') (hsp : noOuterSpace kv.1 = true)
    (hg : GradeTextReadsBack showDouble stod kv.2) :
    deserializeItem stod grades (gradeItem showDouble kv) = mapAssign grades kv.1 kv.2 := by
  have h1 : ':' ∉ kv.1 := fun h => (hk _ h).2 rfl
  have h2 : ':' ∉ showDouble kv.2 := fun h => (hg.2.1 _ h).2 rfl
  have hsplit : split (gradeItem showDouble kv) ':' = [kv.1, showDouble kv.2] := by
    rw [gradeItem, List.append_assoc, List.singleton_append, split_append_delim ':' _ _ h1,
      split_no_delim ':' _ h2 hg.1]
  simp only [deserializeItem, hsplit, hg.2.2, trim_of_noOuterSpace kv.1 hsp]

theorem foldl_deserializeItem {D : Type} (showDouble : D → Str) (stod : Str → Option D)
    (l acc : List (Str × D))
    (hk : ∀ kv ∈ l, (∀ c ∈ kv.1, c ≠ ',' ∧ c ≠ ':') ∧ noOuterSpace kv.1 = true)
    (hg : ∀ kv ∈ l, GradeTextReadsBack showDouble stod kv.2) :
    (l.map (gradeItem showDouble)).foldl (deserializeItem stod) acc
      = l.foldl (fun m kv => mapAssign m kv.1 kv.2) acc := by
  induction l generalizing acc with
  | nil => rfl
  | cons kv rest ih =>
    rw [List.map_cons, List.foldl_cons, List.foldl_cons,
      deserializeItem_gradeItem showDouble stod acc kv (hk kv (by simp)).1 (hk kv (by simp)).2
        (hg kv (by simp))]
    exact ih _ (fun x hx => hk x (by simp [hx])) (fun x hx => hg x (by simp [hx]))

/-- The grade fragment read back: the core of the two round trips. -/
theorem deserialize_serialize {D : Type} (showDouble : D → Str) (stod : Str → Option D)
    (self other : Student D) (hwf : WellFormedMap self.grades)
    (hk : ∀ kv ∈ self.grades, (∀ c ∈ kv.1, c ≠ ',' ∧ c ≠ ':') ∧ noOuterSpace kv.1 = true)
    (hg : ∀ kv ∈ self.grades, GradeTextReadsBack showDouble stod kv.2) :
    (other.deserializeGrades stod (self.serializeGrades showDouble)).grades = self.grades := by
  unfold Student.serializeGrades Student.deserializeGrades
  cases hgr : self.grades with
  | nil => simp [serializeLoop]
  | cons kv rest =>
    rw [hgr] at hwf hk hg
    have hitem := gradeItem_ok showDouble stod kv (hk kv (by simp)).1 (hg kv (by simp))
    have hne : serializeLoop showDouble (kv :: rest) true [] ≠ [] := by
      rw [serializeLoop_first]
      intro h
      exact hitem.2 (List.append_eq_nil.mp h).1
    have hsplit : split (serializeLoop showDouble (kv :: rest) true []) ','
        = (kv :: rest).map (gradeItem showDouble) := by
      rw [serializeLoop_first, flatMap_gradeItem,
        split_items ',' _ _ hitem.1 hitem.2]
      · rfl
      · intro y hy
        obtain ⟨x, hx, rfl⟩ := List.mem_map.mp hy
        exact gradeItem_ok showDouble stod x (hk x (by simp [hx])).1 (hg x (by simp [hx]))
    simp only [hne, if_false, hsplit]
    rw [foldl_deserializeItem showDouble stod (kv :: rest) [] hk hg]
    simpa using foldl_mapAssign_sorted [] (kv :: rest) (by simpa using hwf)

/-! ## Loading one line -/

theorem deserializeGrades_fields {D : Type} (stod : Str → Option D) (s : Student D)
    (text : Str) :
    (s.deserializeGrades stod text).name = s.name ∧
    (s.deserializeGrades stod text).id = s.id ∧
    (s.deserializeGrades stod text).thesisTitle = s.thesisTitle := by
  unfold Student.deserializeGrades
  split <;> exact ⟨rfl, rfl, rfl⟩

theorem loadLine_of_parts {D : Type} (stod : Str → Option D) (line : Str)
    (type idText name extra gradesStr : Str) (more : List Str)
    (hparts : split line '|' = type :: idText :: name :: extra :: gradesStr :: more) :
    loadLine stod line
      = match stoi idText with
        | none => none
        | some id =>
          if type = ['G', 'R', 'D'] then
            some ((GraduateStudent.new name id extra).deserializeGrades stod gradesStr)
          else
            some ((Student.new name id).deserializeGrades stod gradesStr) := by
  have hne : line ≠ [] := by
    rintro rfl
    simp [split_nil] at hparts
  simp only [loadLine, hne, if_false, hparts]

theorem loadLine_short {D : Type} (stod : Str → Option D) (line : Str)
    (h : (split line '|').length < 5) : loadLine stod line = none := by
  unfold loadLine
  split
  · rfl
  · split
    · rename_i heq
      rw [heq] at h
      simp only [List.length_cons] at h
      omega
    · rfl

theorem saveLoop_eq {D : Type} (showDouble : D → Str) (students : List (Student D))
    (fout : Str) :
    saveLoop showDouble students fout
      = fout ++ students.flatMap (fun s => s.getType ++ ['|'] ++ showInt s.getId ++ ['|']
          ++ s.getName ++ ['|'] ++ s.extraInfo ++ ['|'] ++ s.serializeGrades showDouble
          ++ ['\n']) := by
  induction students generalizing fout with
  | nil => simp [saveLoop]
  | cons s rest ih =>
    rw [saveLoop, ih]
    simp [List.flatMap_cons]

/-! ## The roster round trip -/

theorem showInt_chars (n : Int) : ∀ c ∈ showInt n, isdigit c = true ∨ c = '-' := by
  intro c hc
  cases n with
  | ofNat m => exact Or.inl ((toDigits_spec m).2.1 c hc)
  | negSucc m =>
    simp only [showInt, List.mem_cons] at hc
    rcases hc with hc | hc
    · exact Or.inr hc
    · exact Or.inl ((toDigits_spec (m + 1)).2.1 c hc)

theorem showInt_no_format_char (n : Int) : ∀ c ∈ showInt n, c ≠ '|' ∧ c ≠ '\n' := by
  intro c hc
  rcases showInt_chars n c hc with h | h
  · constructor
    · rintro rfl; revert h; decide
    · rintro rfl; revert h; decide
  · subst h
    decide

theorem getType_no_format_char {D : Type} (s : Student D) :
    ∀ c ∈ s.getType, c ≠ '|' ∧ c ≠ '\n' := by
  intro c hc
  unfold Student.getType at hc
  split at hc <;> simp only [List.mem_cons, List.mem_singleton] at hc <;>
    rcases hc with h | h | h | h <;> first | (subst h; decide) | exact absurd h (List.not_mem_nil _)

theorem mem_gradeItem {D : Type} (showDouble : D → Str) (kv : Str × D) (c : Char)
    (h : c ∈ gradeItem showDouble kv) : c ∈ kv.1 ∨ c = ':' ∨ c ∈ showDouble kv.2 := by
  simp only [gradeItem, List.mem_append, List.mem_singleton] at h
  rcases h with (h | h) | h
  · exact Or.inl h
  · exact Or.inr (Or.inl h)
  · exact Or.inr (Or.inr h)

theorem serializeGrades_chars {D : Type} (showDouble : D → Str) (s : Student D) :
    ∀ c ∈ s.serializeGrades showDouble,
      c = ',' ∨ c = ':' ∨ ∃ kv ∈ s.grades, c ∈ kv.1 ∨ c ∈ showDouble kv.2 := by
  intro c hc
  unfold Student.serializeGrades at hc
  cases hgr : s.grades with
  | nil => simp [hgr, serializeLoop] at hc
  | cons kv rest =>
    rw [hgr, serializeLoop_first] at hc
    rcases List.mem_append.mp hc with h | h
    · rcases mem_gradeItem showDouble kv c h with h | h | h
      · exact Or.inr (Or.inr ⟨kv, by simp, Or.inl h⟩)
      · exact Or.inr (Or.inl h)
      · exact Or.inr (Or.inr ⟨kv, by simp, Or.inr h⟩)
    · obtain ⟨x, hx, hcx⟩ := List.mem_flatMap.mp h
      rcases List.mem_cons.mp hcx with h | h
      · exact Or.inl h
      · rcases mem_gradeItem showDouble x c h with h | h | h
        · exact Or.inr (Or.inr ⟨x, by simp [hx], Or.inl h⟩)
        · exact Or.inr (Or.inl h)
        · exact Or.inr (Or.inr ⟨x, by simp [hx], Or.inr h⟩)

theorem serializeGrades_ne_nil {D : Type} (showDouble : D → Str) (s : Student D)
    (h : s.grades ≠ []) : s.serializeGrades showDouble ≠ [] := by
  unfold Student.serializeGrades
  obtain ⟨kv, rest, hgr⟩ := List.exists_cons_of_ne_nil h
  rw [hgr, serializeLoop_first]
  intro h0
  have := (List.append_eq_nil.mp h0).1
  simp [gradeItem] at this

theorem split_lines {α : Type} (f : α → Str) (l : List α) (h : ∀ x ∈ l, '\n' ∉ f x) :
    split (l.flatMap (fun x => f x ++ ['\n'])) '\n' = l.map f := by
  induction l with
  | nil => simp [split_nil]
  | cons x rest ih =>
    rw [List.flatMap_cons, List.append_assoc, List.singleton_append,
      split_append_delim '\n' _ _ (h x (by simp)), ih (fun y hy => h y (by simp [hy]))]
    rfl

theorem mem_formatChars (c : Char) :
    c ∉ formatChars ↔ c ≠ '|' ∧ c ≠ ',' ∧ c ≠ ':' ∧ c ≠ '\n' := by
  simp [formatChars]

theorem serializeGrades_no_format_char {D : Type} (showDouble : D → Str)
    (stod : Str → Option D) (s : Student D) (h : RecordReadsBack showDouble stod s) :
    ∀ c ∈ s.serializeGrades showDouble, c ≠ '|' ∧ c ≠ '\n' := by
  intro c hc
  rcases serializeGrades_chars showDouble s c hc with h1 | h1 | ⟨kv, hkv, h1 | h1⟩
  · subst h1; decide
  · subst h1; decide
  · have := (mem_formatChars c).mp ((h.2.2.2.2.2.2 kv hkv).1 c h1)
    exact ⟨this.1, this.2.2.2⟩
  · have := (mem_formatChars c).mp ((h.2.2.2.2.2.2 kv hkv).2.2.2 c h1)
    exact ⟨this.1, this.2.2.2⟩

theorem split_recordLine {D : Type} (showDouble : D → Str) (stod : Str → Option D)
    (s : Student D) (h : RecordReadsBack showDouble stod s) :
    split (recordLine showDouble s) '|'
      = [s.getType, showInt s.getId, s.getName, s.extraInfo, s.serializeGrades showDouble] := by
  have h1 : '|' ∉ s.getType := fun hm => (getType_no_format_char s _ hm).1 rfl
  have h2 : '|' ∉ showInt s.getId := fun hm => (showInt_no_format_char _ _ hm).1 rfl
  have h3 : '|' ∉ s.getName := fun hm => ((mem_formatChars _).mp (h.2.2.1 _ hm)).1 rfl
  have h4 : '|' ∉ s.extraInfo := fun hm => ((mem_formatChars _).mp (h.2.2.2.1 _ hm)).1 rfl
  have h5 : '|' ∉ s.serializeGrades showDouble :=
    fun hm => (serializeGrades_no_format_char showDouble stod s h _ hm).1 rfl
  have h6 := serializeGrades_ne_nil showDouble s h.2.2.2.2.1
  simp only [recordLine, List.append_assoc, List.singleton_append, List.cons_append,
    List.nil_append]
  rw [split_append_delim '|' _ _ h1, split_append_delim '|' _ _ h2,
    split_append_delim '|' _ _ h3, split_append_delim '|' _ _ h4, split_no_delim '|' _ h5 h6]

theorem recordLine_no_newline {D : Type} (showDouble : D → Str) (stod : Str → Option D)
    (s : Student D) (h : RecordReadsBack showDouble stod s) :
    '\n' ∉ recordLine showDouble s := by
  intro hm
  simp only [recordLine, List.mem_append, List.mem_singleton] at hm
  rcases hm with ((((((((h1 | h1) | h1) | h1) | h1) | h1) | h1) | h1) | h1)
  · exact (getType_no_format_char s _ h1).2 rfl
  · exact absurd h1 (by decide)
  · exact (showInt_no_format_char _ _ h1).2 rfl
  · exact absurd h1 (by decide)
  · exact ((mem_formatChars _).mp (h.2.2.1 _ h1)).2.2.2 rfl
  · exact absurd h1 (by decide)
  · exact ((mem_formatChars _).mp (h.2.2.2.1 _ h1)).2.2.2 rfl
  · exact absurd h1 (by decide)
  · exact (serializeGrades_no_format_char showDouble stod s h _ h1).2 rfl

theorem student_ext {D : Type} (a b : Student D) (h1 : a.name = b.name) (h2 : a.id = b.id)
    (h3 : a.grades = b.grades) (h4 : a.thesisTitle = b.thesisTitle) : a = b := by
  cases a
  cases b
  simp only [Student.mk.injEq]
  exact ⟨h1, h2, h3, h4⟩

theorem loadLine_recordLine {D : Type} (showDouble : D → Str) (stod : Str → Option D)
    (s : Student D) (h : RecordReadsBack showDouble stod s) :
    loadLine stod (recordLine showDouble s) = some s := by
  have hk : ∀ kv ∈ s.grades, (∀ c ∈ kv.1, c ≠ ',' ∧ c ≠ ':') ∧ noOuterSpace kv.1 = true := by
    intro kv hkv
    refine ⟨fun c hc => ?_, (h.2.2.2.2.2.2 kv hkv).2.1⟩
    have := (mem_formatChars c).mp ((h.2.2.2.2.2.2 kv hkv).1 c hc)
    exact ⟨this.2.1, this.2.2.1⟩
  have hg : ∀ kv ∈ s.grades, GradeTextReadsBack showDouble stod kv.2 :=
    fun kv hkv => (h.2.2.2.2.2.2 kv hkv).2.2.1
  rw [loadLine_of_parts stod _ _ _ _ _ _ [] (split_recordLine showDouble stod s h),
    show s.getId = s.id from rfl, stoi_showInt s.id h.1 h.2.1]
  have hgr := fun other => deserialize_serialize showDouble stod s other h.2.2.2.2.2.1 hk hg
  have hf := fun other => deserializeGrades_fields stod (other : Student D)
    (s.serializeGrades showDouble)
  cases hth : s.thesisTitle with
  | none =>
    have hty : s.getType ≠ ['G', 'R', 'D'] := by
      simp [Student.getType, hth]
    simp only [hty, if_false, Option.some.injEq]
    apply student_ext
    · rw [(hf _).1]; rfl
    · rw [(hf _).2.1]; rfl
    · exact hgr _
    · rw [(hf _).2.2, hth]; rfl
  | some thesis =>
    have hty : s.getType = ['G', 'R', 'D'] := by
      simp [Student.getType, hth]
    have hex : s.extraInfo = thesis := by
      simp [Student.extraInfo, hth]
    simp only [hty, if_true, Option.some.injEq]
    apply student_ext
    · rw [(hf _).1]; rfl
    · rw [(hf _).2.1]; rfl
    · exact hgr _
    · rw [(hf _).2.2, hth, hex]; rfl

theorem filterMap_loadLine {D : Type} (showDouble : D → Str) (stod : Str → Option D)
    (students : List (Student D)) (h : ∀ s ∈ students, RecordReadsBack showDouble stod s) :
    (students.map (recordLine showDouble)).filterMap (loadLine stod) = students := by
  induction students with
  | nil => rfl
  | cons s rest ih =>
    rw [List.map_cons, List.filterMap_cons,
      loadLine_recordLine showDouble stod s (h s (by simp)),
      ih (fun x hx => h x (by simp [hx]))]

/-! ## Roster operations -/

theorem addStudent_absent {D : Type} (students : List (Student D)) (x : AddInput)
    (h : ∀ s ∈ students, s.getId ≠ x.id) :
    (addStudent students x.t x.name x.id x.thesis).1 = students ++ [x.record] := by
  have h1 : findIndexById students x.id = -1 := (findIndexById_eq_neg_one students x.id).mpr h
  unfold addStudent AddInput.record
  by_cases ht : x.t = 1 <;> simp [h1, ht]

theorem addStudents_distinct {D : Type} (students : List (Student D)) (inputs : List AddInput)
    (hnew : ∀ x ∈ inputs, ∀ s ∈ students, s.getId ≠ x.id)
    (hdistinct : inputs.Pairwise (fun x y => x.id ≠ y.id)) :
    addStudents students inputs = students ++ inputs.map AddInput.record := by
  induction inputs generalizing students with
  | nil => simp [addStudents]
  | cons x rest ih =>
    have hx := addStudent_absent students x (hnew x (by simp))
    rw [List.pairwise_cons] at hdistinct
    have hstep : addStudents students (x :: rest)
        = addStudents (addStudent students x.t x.name x.id x.thesis).1 rest := by
      simp [addStudents]
    rw [hstep, hx, ih _ _ hdistinct.2]
    · simp
    · intro y hy s hs
      rw [List.mem_append] at hs
      rcases hs with hs | hs
      · exact hnew y (by simp [hy]) s hs
      · simp only [List.mem_singleton] at hs
        subst hs
        have hid : (x.record : Student D).getId = x.id := by
          unfold AddInput.record Student.getId Student.new GraduateStudent.new
          split <;> rfl
        rw [hid]
        exact hdistinct.1 y hy

theorem record_getId {D : Type} (x : AddInput) : (x.record : Student D).getId = x.id := by
  unfold AddInput.record Student.getId Student.new GraduateStudent.new
  split <;> rfl

theorem findIdx_toNat {D : Type} (students : List (Student D)) (id : Int)
    (h : ∃ s ∈ students, s.getId = id) :
    findIndexById students id
      = ((students.findIdx (fun s => decide (s.getId = id)) : Nat) : Int) := by
  have hlt : students.findIdx (fun s => decide (s.getId = id)) < students.length := by
    obtain ⟨s, hs, hid⟩ := h
    exact List.findIdx_lt_length.mpr ⟨s, hs, by simpa using hid⟩
  rw [findIndexById, findIndexByIdFrom_eq]
  simp [hlt]

theorem removeStudent_present {D : Type} (students : List (Student D)) (id : Int)
    (h : ∃ s ∈ students, s.getId = id) :
    removeStudent students id
      = (students.eraseIdx (students.findIdx (fun s => decide (s.getId = id))),
          Outcome.removed) := by
  have h1 := findIdx_toNat students id h
  have h2 : findIndexById students id ≠ -1 := by
    rw [h1]
    omega
  simp only [removeStudent, h2, if_false]
  rw [h1]
  simp

theorem countP_eraseIdx_findIdx {D : Type} (students : List (Student D)) (id : Int)
    (h : ∃ s ∈ students, s.getId = id) :
    (students.eraseIdx (students.findIdx (fun s => decide (s.getId = id)))).countP
        (fun s => decide (s.getId = id)) + 1
      = students.countP (fun s => decide (s.getId = id)) := by
  induction students with
  | nil => simp at h
  | cons s rest ih =>
    by_cases hs : s.getId = id
    · simp [List.findIdx_cons, hs]
    · have hrest : ∃ r ∈ rest, r.getId = id := by
        obtain ⟨r, hr, hid⟩ := h
        rcases List.mem_cons.mp hr with hr | hr
        · subst hr
          exact absurd hid hs
        · exact ⟨r, hr, hid⟩
      simp only [List.findIdx_cons, hs, decide_False, cond_false, List.eraseIdx_cons_succ,
        List.countP_cons_of_neg, not_false_eq_true, Bool.false_eq_true]
      exact ih hrest

/-! ## Absent ids and the invariant of the roster -/

theorem findIndexById_bounds {D : Type} (students : List (Student D)) (id : Int)
    (h : findIndexById students id ≠ -1) :
    findIndexById students id
        = ((students.findIdx (fun s => decide (s.getId = id)) : Nat) : Int) ∧
      students.findIdx (fun s => decide (s.getId = id)) < students.length := by
  rw [findIndexById, findIndexByIdFrom_eq] at h ⊢
  split
  · rename_i hlt
    exact ⟨by simp, hlt⟩
  · rename_i hlt
    simp [hlt] at h

theorem addOrUpdateGrade_present {D : Type} (students : List (Student D)) (id : Int)
    (subject : Str) (grade : D) (h : ∃ s ∈ students, s.getId = id) :
    addOrUpdateGrade students id subject grade
      = (students.modify (fun s => s.addGrade subject grade)
          (students.findIdx (fun s => decide (s.getId = id))), Outcome.gradeSaved) := by
  have h1 := findIdx_toNat students id h
  have h2 : findIndexById students id ≠ -1 := by
    rw [h1]
    omega
  simp only [addOrUpdateGrade, h2, if_false]
  rw [h1]
  simp

theorem addStudent_present {D : Type} (students : List (Student D)) (t : Int) (name : Str)
    (id : Int) (thesis : Str) (h : ∃ s ∈ students, s.getId = id) :
    addStudent students t name id thesis = (students, Outcome.cancelled) := by
  have h1 : findIndexById students id ≠ -1 := by
    rw [Ne, findIndexById_eq_neg_one]
    obtain ⟨s, hs, hid⟩ := h
    exact fun hall => hall s hs hid
  simp [addStudent, h1]

theorem map_getId_modify {D : Type} (students : List (Student D)) (subject : Str) (grade : D)
    (n : Nat) :
    (students.modify (fun s => s.addGrade subject grade) n).map Student.getId
      = students.map Student.getId := by
  induction students generalizing n with
  | nil => simp
  | cons s rest ih =>
    cases n with
    | zero => simp [List.modify_zero_cons, Student.getId, Student.addGrade]
    | succ m => simp [List.modify_succ_cons, ih m]

theorem map_getId_addOrUpdateGrade {D : Type} (students : List (Student D)) (id : Int)
    (subject : Str) (grade : D) :
    (addOrUpdateGrade students id subject grade).1.map Student.getId
      = students.map Student.getId := by
  unfold addOrUpdateGrade
  simp only
  split
  · rfl
  · exact map_getId_modify students subject grade _

theorem removeStudent_sublist {D : Type} (students : List (Student D)) (id : Int) :
    (removeStudent students id).1.Sublist students := by
  unfold removeStudent
  simp only
  split
  · exact List.Sublist.refl _
  · exact List.eraseIdx_sublist _ _

theorem applyOp_distinct {D : Type} (students : List (Student D)) (op : RosterOp D)
    (h : (students.map Student.getId).Nodup) : ((applyOp students op).map Student.getId).Nodup := by
  cases op with
  | add x =>
    by_cases hp : ∃ s ∈ students, s.getId = x.id
    · simp only [applyOp, addStudent_present students x.t x.name x.id x.thesis hp]
      exact h
    · have hab : ∀ s ∈ students, s.getId ≠ x.id := fun s hs hid => hp ⟨s, hs, hid⟩
      simp only [applyOp, addStudent_absent students x hab, List.map_append, List.map_cons,
        List.map_nil, record_getId]
      rw [List.nodup_append]
      refine ⟨h, List.nodup_singleton _, ?_⟩
      intro a ha hb
      simp only [List.mem_singleton] at hb
      obtain ⟨s, hs, hid⟩ := List.mem_map.mp ha
      exact hab s hs (by rw [hid, hb])
  | remove id =>
    exact List.Nodup.sublist ((removeStudent_sublist students id).map Student.getId) h
  | grade id subject grade =>
    simp only [applyOp, map_getId_addOrUpdateGrade]
    exact h

theorem runOps_distinct {D : Type} (students : List (Student D)) (ops : List (RosterOp D))
    (h : (students.map Student.getId).Nodup) : ((runOps students ops).map Student.getId).Nodup := by
  induction ops generalizing students with
  | nil => exact h
  | cons op rest ih => exact ih (applyOp students op) (applyOp_distinct students op h)

/-! ## Reading a grade fragment -/

theorem strLt_irrefl (a : Str) : strLt a a = false := by
  cases h : strLt a a with
  | false => rfl
  | true => exact absurd (strLt_asymm a a h) (by simp [h])

theorem mapFind_mapAssign {D : Type} (m : List (Str × D)) (key : Str) (v : D) (k : Str) :
    mapFind (mapAssign m key v) k = if key = k then some v else mapFind m k := by
  induction m with
  | nil => simp [mapAssign, mapFind]
  | cons e rest ih =>
    obtain ⟨k0, w⟩ := e
    rw [mapAssign]
    by_cases h1 : strLt key k0 = true
    · rw [if_pos h1]
      simp only [mapFind]
    · rw [if_neg h1]
      by_cases h2 : strLt k0 key = true
      · rw [if_pos h2]
        simp only [mapFind, ih]
        by_cases h3 : k0 = k
        · have h4 : key ≠ k := by
            rintro rfl
            rw [h3, strLt_irrefl] at h2
            exact Bool.noConfusion h2
          simp [h3, h4]
        · simp [h3]
      · rw [if_neg h2]
        have hk : key = k0 := strLt_total key k0 (by simpa using h1) (by simpa using h2)
        subst hk
        simp only [mapFind]
        by_cases h3 : key = k <;> simp [h3]

theorem deserializeItem_eq {D : Type} (stod : Str → Option D) (grades : List (Str × D))
    (it : Str) :
    deserializeItem stod grades it
      = match itemEntry stod it with
        | some kv => mapAssign grades kv.1 kv.2
        | none => grades := by
  unfold deserializeItem itemEntry
  generalize split it ':' = parts
  match parts with
  | [] => rfl
  | [_] => rfl
  | [p0, p1] => cases hst : stod (trim p1) <;> simp [hst]
  | _ :: _ :: _ :: _ => rfl

theorem foldl_deserializeItem_eq {D : Type} (stod : Str → Option D) (items : List Str)
    (acc : List (Str × D)) :
    items.foldl (deserializeItem stod) acc
      = (items.filterMap (itemEntry stod)).foldl (fun m kv => mapAssign m kv.1 kv.2) acc := by
  induction items generalizing acc with
  | nil => rfl
  | cons it rest ih =>
    rw [List.foldl_cons, List.filterMap_cons, deserializeItem_eq]
    cases h : itemEntry stod it with
    | none => exact ih acc
    | some kv => exact ih _

theorem mapFind_foldl {D : Type} (pairs acc : List (Str × D)) (k : Str) :
    mapFind (pairs.foldl (fun m kv => mapAssign m kv.1 kv.2) acc) k
      = match pairs.reverse.find? (fun kv => decide (kv.1 = k)) with
        | some kv => some kv.2
        | none => mapFind acc k := by
  induction pairs generalizing acc with
  | nil => rfl
  | cons kv rest ih =>
    rw [List.foldl_cons, ih, List.reverse_cons, List.find?_append]
    cases hf : rest.reverse.find? (fun kv => decide (kv.1 = k)) with
    | some x => rfl
    | none =>
      simp only [Option.none_or, List.find?_cons, List.find?_nil, mapFind_mapAssign]
      by_cases hk : kv.1 = k <;> simp [hk]

theorem deserializeGrades_eq {D : Type} (stod : Str → Option D) (self : Student D) (s : Str) :
    (self.deserializeGrades stod s).grades
      = ((split s ',').filterMap (itemEntry stod)).foldl
          (fun m kv => mapAssign m kv.1 kv.2) [] := by
  unfold Student.deserializeGrades
  split
  · rename_i h
    simp [h, split_nil]
  · exact foldl_deserializeItem_eq stod _ []

/-! ## Writing a grade fragment, assigning a grade -/

theorem intercalate_cons {α : Type} (sep x : List α) (xs : List (List α)) :
    List.intercalate sep (x :: xs) = x ++ xs.flatMap (fun y => sep ++ y) := by
  induction xs generalizing x with
  | nil => simp [List.intercalate, List.intersperse]
  | cons y ys ih =>
    have h := ih y
    simp only [List.intercalate, List.intersperse, List.flatten_cons, List.flatMap_cons]
      at h ⊢
    rw [h]
    simp

theorem serializeGrades_eq_intercalate {D : Type} (showDouble : D → Str) (self : Student D) :
    self.serializeGrades showDouble
      = List.intercalate [','] (self.grades.map (fun kv => kv.1 ++ [':'] ++ showDouble kv.2)) := by
  unfold Student.serializeGrades
  cases self.grades with
  | nil => simp [serializeLoop, List.intercalate, List.intersperse]
  | cons kv rest =>
    rw [serializeLoop_first, List.map_cons, intercalate_cons]
    simp [gradeItem, List.flatMap_map, List.flatMap, Function.comp_def]

theorem mapFind_none_of_lt {D : Type} (m : List (Str × D)) (k : Str)
    (h : ∀ kv ∈ m, strLt k kv.1 = true) : mapFind m k = none := by
  induction m with
  | nil => rfl
  | cons e rest ih =>
    obtain ⟨k0, w⟩ := e
    have h0 : strLt k k0 = true := h (k0, w) (by simp)
    have hne : k0 ≠ k := by
      rintro rfl
      rw [strLt_irrefl] at h0
      exact Bool.noConfusion h0
    simp only [mapFind, hne, if_false]
    exact ih (fun kv hkv => h kv (by simp [hkv]))

theorem wellFormed_tail_lt {D : Type} (k : Str) (w : D) (rest : List (Str × D))
    (h : WellFormedMap ((k, w) :: rest)) :
    (∀ kv ∈ rest, strLt k kv.1 = true) ∧ WellFormedMap rest := by
  unfold WellFormedMap at h ⊢
  rw [List.pairwise_cons] at h
  exact ⟨fun kv hkv => h.1 kv hkv, h.2⟩

/-- Two maps that hold the same grade, or none, for every subject have the same
entries in the same order. -/
theorem wellFormed_ext {D : Type} (m1 m2 : List (Str × D)) (h1 : WellFormedMap m1)
    (h2 : WellFormedMap m2) (h : ∀ k, mapFind m1 k = mapFind m2 k) : m1 = m2 := by
  induction m1 generalizing m2 with
  | nil =>
    cases m2 with
    | nil => rfl
    | cons e rest =>
      have := h e.1
      simp [mapFind] at this
  | cons e1 r1 ih =>
    obtain ⟨k1, v1⟩ := e1
    cases m2 with
    | nil =>
      have := h k1
      simp [mapFind] at this
    | cons e2 r2 =>
      obtain ⟨k2, v2⟩ := e2
      obtain ⟨hlt1, hw1⟩ := wellFormed_tail_lt k1 v1 r1 h1
      obtain ⟨hlt2, hw2⟩ := wellFormed_tail_lt k2 v2 r2 h2
      have hk : k1 = k2 := by
        by_contra hne
        have hne' : ¬ k2 = k1 := fun e => hne e.symm
        cases h12 : strLt k1 k2 with
        | true =>
          have hnone : mapFind ((k2, v2) :: r2) k1 = none :=
            mapFind_none_of_lt _ k1 (by
              intro kv hkv
              rcases List.mem_cons.mp hkv with hkv | hkv
              · rw [hkv]; exact h12
              · exact strLt_trans k1 k2 kv.1 h12 (hlt2 kv hkv))
          have := h k1
          rw [hnone] at this
          simp [mapFind] at this
        | false =>
          cases h21 : strLt k2 k1 with
          | true =>
            have hnone : mapFind ((k1, v1) :: r1) k2 = none :=
              mapFind_none_of_lt _ k2 (by
                intro kv hkv
                rcases List.mem_cons.mp hkv with hkv | hkv
                · rw [hkv]; exact h21
                · exact strLt_trans k2 k1 kv.1 h21 (hlt1 kv hkv))
            have := h k2
            rw [hnone] at this
            simp [mapFind] at this
          | false => exact hne (strLt_total k1 k2 h12 h21)
      subst hk
      have hv : v1 = v2 := by
        have := h k1
        simpa [mapFind] using this
      subst hv
      have hrest : ∀ k, mapFind r1 k = mapFind r2 k := by
        intro k
        by_cases hk : k1 = k
        · subst hk
          rw [mapFind_none_of_lt r1 k1 hlt1, mapFind_none_of_lt r2 k1 hlt2]
        · have := h k
          simpa [mapFind, hk] using this
      rw [ih r2 hw1 hw2 hrest]

theorem addGrades_wellFormed {D : Type} (self : Student D) (calls : List (Str × D))
    (h : WellFormedMap self.grades) : WellFormedMap (addGrades self calls).grades := by
  unfold addGrades
  induction calls generalizing self with
  | nil => exact h
  | cons c rest ih =>
    rw [List.foldl_cons]
    exact ih _ (mapAssign_wellFormed _ _ _ h)

theorem mem_of_mapFind {D : Type} (m : List (Str × D)) (k : Str) (v : D)
    (h : mapFind m k = some v) : (k, v) ∈ m := by
  induction m with
  | nil => simp [mapFind] at h
  | cons e rest ih =>
    obtain ⟨k0, w⟩ := e
    simp only [mapFind] at h
    by_cases hk : k0 = k
    · simp only [hk, if_true, Option.some.injEq] at h
      rw [hk, h]
      exact List.mem_cons_self _ _
    · simp only [hk, if_false] at h
      exact List.mem_cons_of_mem _ (ih h)

theorem countP_key_le_one {D : Type} (m : List (Str × D)) (k : Str) (h : WellFormedMap m) :
    m.countP (fun kv => decide (kv.1 = k)) ≤ 1 := by
  induction m with
  | nil => simp
  | cons e rest ih =>
    obtain ⟨k0, w⟩ := e
    obtain ⟨hlt, hw⟩ := wellFormed_tail_lt k0 w rest h
    by_cases hk : k0 = k
    · have hzero : rest.countP (fun kv => decide (kv.1 = k)) = 0 := by
        rw [List.countP_eq_zero]
        intro kv hkv
        have hl := hlt kv hkv
        simp only [decide_eq_true_eq]
        rintro rfl
        rw [hk, strLt_irrefl] at hl
        exact Bool.noConfusion hl
      rw [List.countP_cons_of_pos _ _ (by simpa using hk), hzero]
    · rw [List.countP_cons_of_neg _ _ (by simpa using hk)]
      exact ih hw

theorem length_mapAssign {D : Type} (m : List (Str × D)) (key : Str) (v : D)
    (h : WellFormedMap m) :
    (mapAssign m key v).length
      = if (mapFind m key).isSome then m.length else m.length + 1 := by
  induction m with
  | nil => simp [mapAssign, mapFind]
  | cons e rest ih =>
    obtain ⟨k0, w⟩ := e
    obtain ⟨hlt, hw⟩ := wellFormed_tail_lt k0 w rest h
    rw [mapAssign]
    by_cases h1 : strLt key k0 = true
    · rw [if_pos h1]
      have hnone : mapFind ((k0, w) :: rest) key = none :=
        mapFind_none_of_lt _ key (by
          intro kv hkv
          rcases List.mem_cons.mp hkv with hkv | hkv
          · rw [hkv]; exact h1
          · exact strLt_trans key k0 kv.1 h1 (hlt kv hkv))
      simp [hnone]
    · rw [if_neg h1]
      by_cases h2 : strLt k0 key = true
      · rw [if_pos h2]
        have hne : k0 ≠ key := by
          rintro rfl
          rw [strLt_irrefl] at h2
          exact Bool.noConfusion h2
        simp only [List.length_cons, ih hw, mapFind, hne, if_false]
        split <;> rfl
      · rw [if_neg h2]
        have hk : key = k0 := strLt_total key k0 (by simpa using h1) (by simpa using h2)
        simp [mapFind, hk]

/-! ## The average -/

theorem averageLoop_eq_foldl {D : Type} (add : D → D → D) (grades : List (Str × D)) (sum : D) :
    averageLoop add grades sum = (grades.map Prod.snd).foldl add sum := by
  induction grades generalizing sum with
  | nil => rfl
  | cons kv rest ih =>
    rw [averageLoop, ih]
    rfl

/-! ## Load line by line, remove, search -/

theorem loadLine_isSome_iff {D : Type} (stod : Str → Option D) (line : Str) :
    (∃ r, loadLine stod line = some r) ↔
      line ≠ [] ∧ 5 ≤ (split line '|').length ∧
        ∃ id, stoi ((split line '|').getD 1 []) = some id := by
  constructor
  · rintro ⟨r, hr⟩
    have hlen : ¬ (split line '|').length < 5 := by
      intro hlt
      rw [loadLine_short stod line hlt] at hr
      exact Option.noConfusion hr
    have hne : line ≠ [] := by
      rintro rfl
      simp [split_nil] at hlen
    refine ⟨hne, by omega, ?_⟩
    match hsp : split line '|' with
    | [] => simp [hsp] at hlen
    | [_] => simp [hsp] at hlen
    | [_, _] => simp [hsp] at hlen
    | [_, _, _] => simp [hsp] at hlen
    | [_, _, _, _] => simp [hsp] at hlen
    | type :: idText :: name :: extra :: gradesStr :: more =>
      rw [loadLine_of_parts stod line type idText name extra gradesStr more hsp] at hr
      cases hst : stoi idText with
      | none => simp [hst] at hr
      | some id => exact ⟨id, by simp [hst]⟩
  · rintro ⟨-, hlen, id, hid⟩
    match hsp : split line '|' with
    | [] => simp [hsp] at hlen
    | [_] => simp [hsp] at hlen
    | [_, _] => simp [hsp] at hlen
    | [_, _, _] => simp [hsp] at hlen
    | [_, _, _, _] => simp [hsp] at hlen
    | type :: idText :: name :: extra :: gradesStr :: more =>
      rw [loadLine_of_parts stod line type idText name extra gradesStr more hsp]
      have hst : stoi idText = some id := by simpa [hsp] using hid
      simp only [hst]
      split <;> exact ⟨_, rfl⟩

theorem loadLine_first_five {D : Type} (stod : Str → Option D) (line1 line2 : Str)
    (h : (split line1 '|').take 5 = (split line2 '|').take 5) :
    loadLine stod line1 = loadLine stod line2 := by
  by_cases h1 : (split line1 '|').length < 5
  · have h2 : (split line2 '|').length < 5 := by
      have := congrArg List.length h
      simp only [List.length_take] at this
      omega
    rw [loadLine_short stod line1 h1, loadLine_short stod line2 h2]
  · have h2 : ¬ (split line2 '|').length < 5 := by
      have := congrArg List.length h
      simp only [List.length_take] at this
      omega
    match hsp1 : split line1 '|', hsp2 : split line2 '|' with
    | [], _ => simp [hsp1] at h1
    | [_], _ => simp [hsp1] at h1
    | [_, _], _ => simp [hsp1] at h1
    | [_, _, _], _ => simp [hsp1] at h1
    | [_, _, _, _], _ => simp [hsp1] at h1
    | _ :: _ :: _ :: _ :: _ :: _, [] => simp [hsp2] at h2
    | _ :: _ :: _ :: _ :: _ :: _, [_] => simp [hsp2] at h2
    | _ :: _ :: _ :: _ :: _ :: _, [_, _] => simp [hsp2] at h2
    | _ :: _ :: _ :: _ :: _ :: _, [_, _, _] => simp [hsp2] at h2
    | _ :: _ :: _ :: _ :: _ :: _, [_, _, _, _] => simp [hsp2] at h2
    | a1 :: b1 :: c1 :: d1 :: e1 :: more1, a2 :: b2 :: c2 :: d2 :: e2 :: more2 =>
      rw [hsp1, hsp2] at h
      simp only [List.take_succ_cons, List.take_zero, List.cons.injEq, and_true] at h
      obtain ⟨ha, hb, hc, hd, he⟩ := h
      subst ha hb hc hd he
      rw [loadLine_of_parts stod line1 _ _ _ _ _ more1 hsp1,
        loadLine_of_parts stod line2 _ _ _ _ _ more2 hsp2]

theorem eraseIdx_findIdx_split {α : Type} (p : α → Bool) (l : List α)
    (h : ∃ x ∈ l, p x = true) :
    ∃ (pre : List α) (s : α) (post : List α),
      l = pre ++ s :: post ∧ p s = true ∧ (∀ x ∈ pre, p x = false) ∧
      l.findIdx p = pre.length ∧ l.eraseIdx (l.findIdx p) = pre ++ post := by
  induction l with
  | nil => simp at h
  | cons a rest ih =>
    by_cases ha : p a = true
    · exact ⟨[], a, rest, rfl, ha, by simp, by simp [List.findIdx_cons, ha],
        by simp [List.findIdx_cons, ha]⟩
    · have hrest : ∃ x ∈ rest, p x = true := by
        obtain ⟨x, hx, hpx⟩ := h
        rcases List.mem_cons.mp hx with hx | hx
        · subst hx
          exact absurd hpx ha
        · exact ⟨x, hx, hpx⟩
      obtain ⟨pre, s, post, hl, hs, hpre, hidx, herase⟩ := ih hrest
      have ha' : p a = false := by simpa using ha
      refine ⟨a :: pre, s, post, by rw [hl]; rfl, hs, ?_, ?_, ?_⟩
      · intro x hx
        rcases List.mem_cons.mp hx with hx | hx
        · rw [hx]; exact ha'
        · exact hpre x hx
      · simp [List.findIdx_cons, ha', hidx]
      · simp only [List.findIdx_cons, ha', cond_false, List.eraseIdx_cons_succ, herase,
          List.cons_append]

/-- The result of `findIndexById` is an `int` value for every roster of at most
2^31 records: in that range `static_cast<int>` leaves the index as it is. -/
theorem findIndexById_fits_int {D : Type} (students : List (Student D)) (id : Int)
    (h : students.length ≤ 2147483648) :
    INT_MIN ≤ findIndexById students id ∧ findIndexById students id ≤ INT_MAX := by
  rw [findIndexById, findIndexByIdFrom_eq]
  unfold INT_MIN INT_MAX
  split
  · rename_i hlt
    constructor <;> omega
  · constructor <;> omega

/-! ## The pieces of `split` -/

theorem exists_first_delim (d : Char) (s : Str) (h : d ∈ s) :
    ∃ a b : Str, s = a ++ d :: b ∧ d ∉ a := by
  induction s with
  | nil => simp at h
  | cons c cs ih =>
    by_cases hc : c = d
    · exact ⟨[], cs, by rw [hc]; rfl, by simp⟩
    · have hcs : d ∈ cs := by
        rcases List.mem_cons.mp h with h | h
        · exact absurd h.symm hc
        · exact h
      obtain ⟨a, b, hs, ha⟩ := ih hcs
      refine ⟨c :: a, b, by rw [hs]; rfl, ?_⟩
      intro hm
      rcases List.mem_cons.mp hm with hm | hm
      · exact hc hm.symm
      · exact ha hm

theorem intercalate_cons_cons {α : Type} (sep a x : List α) (xs : List (List α)) :
    List.intercalate sep (a :: x :: xs) = a ++ sep ++ List.intercalate sep (x :: xs) := by
  simp [List.intercalate, List.intersperse]

theorem intercalate_singleton {α : Type} (sep a : List α) :
    List.intercalate sep [a] = a := by
  simp [List.intercalate, List.intersperse]

theorem split_pieces (d : Char) (n : Nat) :
    ∀ s : Str, s.length ≤ n →
      (∀ p ∈ split s d, d ∉ p) ∧
      (s ≠ [] → s.getLast? ≠ some d →
        (split s d).length = s.count d + 1 ∧ List.intercalate [d] (split s d) = s) ∧
      (s.getLast? = some d →
        (split s d).length = s.count d ∧ List.intercalate [d] (split s d) = s.dropLast) := by
  induction n with
  | zero =>
    intro s hs
    have : s = [] := List.eq_nil_of_length_eq_zero (by omega)
    subst this
    simp [split_nil]
  | succ n ih =>
    intro s hs
    by_cases hd : d ∈ s
    · obtain ⟨a, b, rfl, ha⟩ := exists_first_delim d s hd
      have hb : b.length ≤ n := by
        simp only [List.length_append, List.length_cons] at hs
        omega
      obtain ⟨ih1, ih2, ih3⟩ := ih b hb
      have hsplit := split_append_delim d a b ha
      have hcount : (a ++ d :: b).count d = b.count d + 1 := by
        rw [List.count_append, List.count_cons_self, List.count_eq_zero.mpr ha]
        omega
      rw [hsplit, hcount]
      cases b with
      | nil =>
        refine ⟨?_, ?_, ?_⟩
        · intro p hp
          simp only [split_nil, List.mem_singleton] at hp
          rw [hp]
          exact ha
        · intro _ hlast
          simp at hlast
        · intro _
          simp [split_nil, intercalate_singleton]
      | cons x xs =>
        have hlast : (a ++ d :: x :: xs).getLast? = (x :: xs).getLast? := by
          rw [List.getLast?_append, List.getLast?_cons_cons]
          cases h : (x :: xs).getLast? with
          | none => simp at h
          | some y => rfl
        have hne : split (x :: xs) d ≠ [] := by
          rw [split_cons]
          simp
        obtain ⟨y, ys, hys⟩ := List.exists_cons_of_ne_nil hne
        refine ⟨?_, ?_, ?_⟩
        · intro p hp
          rcases List.mem_cons.mp hp with hp | hp
          · rw [hp]
            exact ha
          · exact ih1 p hp
        · intro _ hl
          rw [hlast] at hl
          obtain ⟨h1, h2⟩ := ih2 (by simp) hl
          refine ⟨by simp only [List.length_cons, h1], ?_⟩
          rw [hys, intercalate_cons_cons, ← hys, h2]
          simp
        · intro hl
          rw [hlast] at hl
          obtain ⟨h1, h2⟩ := ih3 hl
          refine ⟨by simp only [List.length_cons, h1], ?_⟩
          rw [hys, intercalate_cons_cons, ← hys, h2, List.dropLast_append_cons]
          simp
    · by_cases hne : s = []
      · subst hne
        simp [split_nil]
      · rw [split_no_delim d s hd hne, List.count_eq_zero.mpr hd]
        refine ⟨?_, ?_, ?_⟩
        · intro p hp
          simp only [List.mem_singleton] at hp
          rw [hp]
          exact hd
        · intro _ _
          exact ⟨rfl, intercalate_singleton _ _⟩
        · intro hl
          obtain ⟨ys, hys⟩ := List.getLast?_eq_some_iff.mp hl
          exact absurd (by rw [hys]; simp) hd

/-! ## Properties of the specification -/

/-- Counterexample to C1 as stated: in the roster of the one regular student Ann
whose only subject is " math", no name and no subject holds a bar, a comma or a
colon, yet the roster loaded from the saved text differs: the subject has
become "math". -/
theorem C1_counterexample_subject_with_space :
    (∀ c ∈ "Ann".toList ++ " math".toList, c ≠ '|' ∧ c ≠ ',' ∧ c ≠ ':') ∧
    (loadFromFile stodWhole
        (saveToFile showWhole true
          [(Student.new "Ann".toList 1).addGrade " math".toList 90]).2 []).2
      = [exampleAnn] ∧
    exampleAnn ≠ (Student.new "Ann".toList 1).addGrade " math".toList 90 := by
  decide

/-- Records without grades do not survive the round trip: such a record is
written as a line that ends with a bar, `split` gives 4 parts for it, and
`loadFromFile` drops the line. -/
theorem save_load_drops_record_without_grades :
    (saveToFile showWhole true [exampleAnn, exampleBo]).2
      = some "STU|1|Ann||math:90\nGRD|2|Bo|X|\n".toList ∧
    split "GRD|2|Bo|X|".toList '|' = ["GRD".toList, "2".toList, "Bo".toList, "X".toList] ∧
    (loadFromFile stodWhole (saveToFile showWhole true [exampleAnn, exampleBo]).2 []).2
      = [exampleAnn] := by
  decide

/-- The format has no escape for a newline: a name that holds one is written
across two lines, both are malformed, and the record is lost on load. -/
theorem save_load_loses_name_with_newline :
    (loadFromFile stodWhole
        (saveToFile showWhole true
          [(Student.new "An\nn".toList 1).addGrade "math".toList 90]).2 []).2
      = ([] : List (Student Int)) := by
  decide

/-- C1 (amended). Roster round trip: for every roster of regular and graduate
records in which every record has at least one grade and an id that is an
`int`, no name, thesis title or subject holds a bar, a comma, a colon or a
newline, no subject begins or ends with a char that `trim` strips, and the
text written for every grade holds none of those four chars and is read back
as that grade (`RecordReadsBack`), loading the text written by `saveToFile`
succeeds and yields exactly that roster: the same records in the same order,
whatever the roster held before. -/
theorem C1_roster_round_trip {D : Type} (showDouble : D → Str) (stod : Str → Option D)
    (students prior : List (Student D))
    (h : ∀ s ∈ students, RecordReadsBack showDouble stod s) :
    loadFromFile stod (saveToFile showDouble true students).2 prior = (true, students) := by
  have hsave : (saveToFile showDouble true students).2
      = some (students.flatMap (fun s => recordLine showDouble s ++ ['\n'])) := by
    simp only [saveToFile, if_true, saveLoop_eq, List.nil_append, recordLine]
  rw [hsave, loadFromFile_some,
    split_lines (recordLine showDouble) students
      (fun s hs => recordLine_no_newline showDouble stod s (h s hs)),
    filterMap_loadLine showDouble stod students h]

/-- Witness for C1: a regular student with two grades and a graduate student
with one, loaded over a roster that held another record. -/
theorem C1_roster_round_trip_witness :
    loadFromFile stodWhole
        (saveToFile showWhole true
          [exampleAnn.addGrade "art".toList 75, exampleBo.addGrade "sci".toList (-3)]).2
        [exampleBo]
      = (true, [exampleAnn.addGrade "art".toList 75, exampleBo.addGrade "sci".toList (-3)]) :=
  C1_roster_round_trip showWhole stodWhole
    [exampleAnn.addGrade "art".toList 75, exampleBo.addGrade "sci".toList (-3)] [exampleBo]
    (by decide)

/-- Counterexample to C2 as stated: the subject " math" holds neither a comma
nor a colon, yet the grade map read back from the written fragment has the
subject "math" instead. -/
theorem C2_counterexample_subject_with_space :
    (∀ c ∈ " math".toList, c ≠ ',' ∧ c ≠ ':') ∧
    ((Student.new [] 0 : Student Int).deserializeGrades stodWhole
        (((Student.new [] 0 : Student Int).addGrade " math".toList 90).serializeGrades
          showWhole)).grades
      = [("math".toList, 90)] ∧
    ((Student.new [] 0 : Student Int).addGrade " math".toList 90).grades
      = [(" math".toList, 90)] ∧
    [("math".toList, (90 : Int))] ≠ [(" math".toList, 90)] := by
  decide

/-- C2 (amended). Grade-set round trip: for every grade map in which no subject
holds a comma or a colon or begins or ends with a char that `trim` strips
(space, tab, carriage return, newline), and in which the text written for
every grade is read back as that grade (`GradeTextReadsBack`),
`deserializeGrades` applied to the text of `serializeGrades` gives exactly the
same entries, whatever grades the receiving record held before. -/
theorem C2_grade_set_round_trip {D : Type} (showDouble : D → Str) (stod : Str → Option D)
    (self other : Student D) (hwf : WellFormedMap self.grades)
    (hsubject : ∀ kv ∈ self.grades,
      (∀ c ∈ kv.1, c ≠ ',' ∧ c ≠ ':') ∧ noOuterSpace kv.1 = true)
    (hgrade : ∀ kv ∈ self.grades, GradeTextReadsBack showDouble stod kv.2) :
    (other.deserializeGrades stod (self.serializeGrades showDouble)).grades = self.grades :=
  deserialize_serialize showDouble stod self other hwf hsubject hgrade

/-- Witness for C2: the grades math -> 80 and sci -> 90, read back into a record
that held another grade. -/
theorem C2_grade_set_round_trip_witness :
    (exampleAnn.deserializeGrades stodWhole
        ((((Student.new [] 0 : Student Int).addGrade "sci".toList 90).addGrade
          "math".toList 80).serializeGrades showWhole)).grades
      = [("math".toList, 80), ("sci".toList, 90)] :=
  C2_grade_set_round_trip showWhole stodWhole
    (((Student.new [] 0 : Student Int).addGrade "sci".toList 90).addGrade "math".toList 80)
    exampleAnn (by decide) (by decide) (by decide)

/-- C3. Save format: the text `saveToFile` writes is the concatenation, in roster
order, of one line per record made of `getType`, the id, the name, `extraInfo`
and `serializeGrades`, joined by bars and ended by a newline; `getType` is GRD
and `extraInfo` the thesis title for a graduate student, and they are STU and
the empty text for a regular student. When the grade 90 is written as 90, the
roster of the regular student Ann (id 1, math -> 90) and the graduate student Bo
(id 2, thesis X, no grades) is written as the two lines STU|1|Ann||math:90 and
GRD|2|Bo|X| . -/
theorem C3_save_format {D : Type} (showDouble : D → Str) :
    (∀ students : List (Student D),
      saveToFile showDouble true students
        = (true, some (students.flatMap (fun s => s.getType ++ ['|'] ++ showInt s.getId
            ++ ['|'] ++ s.getName ++ ['|'] ++ s.extraInfo ++ ['|']
            ++ s.serializeGrades showDouble ++ ['\n'])))) ∧
    (∀ (name : Str) (id : Int) (grades : List (Str × D)) (thesis : Str),
      Student.getType { name := name, id := id, grades := grades, thesisTitle := some thesis }
        = "GRD".toList ∧
      Student.extraInfo { name := name, id := id, grades := grades, thesisTitle := some thesis }
        = thesis ∧
      Student.getType { name := name, id := id, grades := grades, thesisTitle := none }
        = "STU".toList ∧
      Student.extraInfo { name := name, id := id, grades := grades, thesisTitle := none }
        = []) ∧
    (∀ g90 : D, showDouble g90 = "90".toList →
      saveToFile showDouble true
          [(Student.new "Ann".toList 1).addGrade "math".toList g90,
            GraduateStudent.new "Bo".toList 2 "X".toList]
        = (true, some "STU|1|Ann||math:90\nGRD|2|Bo|X|\n".toList)) ∧
    saveToFile showWhole true [exampleAnn, exampleBo]
      = (true, some "STU|1|Ann||math:90\nGRD|2|Bo|X|\n".toList) := by
  refine ⟨fun students => ?_, fun name id grades thesis => ⟨rfl, rfl, rfl, rfl⟩,
    fun g90 h90 => ?_, by decide⟩
  · simp only [saveToFile, if_true, saveLoop_eq, List.nil_append]
  · have h1 : showInt 1 = "1".toList := by decide
    have h2 : showInt 2 = "2".toList := by decide
    simp only [saveToFile, if_true, saveLoop, Student.getType, Student.getId, Student.getName,
      Student.extraInfo, Student.serializeGrades, Student.addGrade, Student.new,
      GraduateStudent.new, mapAssign, serializeLoop, h90, h1, h2]
    rfl

/-- C4. Malformed lines are dropped, not fatal: for every text of a readable
file `loadFromFile` returns true and the roster is made of the records of the
lines of the text, each line handled on its own and in order; a line that
splits on the bar into fewer than 5 parts gives no record. A file with the
line STU|1|Ann||math:90 and a line of 3 parts, in either order, loads as a
roster of exactly one record. -/
theorem C4_malformed_lines_dropped {D : Type} (stod : Str → Option D) :
    (∀ (text : Str) (students : List (Student D)),
      (loadFromFile stod (some text) students).1 = true ∧
      (loadFromFile stod (some text) students).2
        = (split text '\n').filterMap (loadLine stod)) ∧
    (∀ line : Str, (split line '|').length < 5 → loadLine stod line = none) ∧
    (∀ students : List (Student D),
      (loadFromFile stod (some "STU|1|Ann||math:90\nSTU|2|Bob\n".toList) students).2.length = 1 ∧
      (loadFromFile stod (some "STU|2|Bob\nSTU|1|Ann||math:90\n".toList) students).2.length
        = 1) := by
  refine ⟨fun text students => ?_, fun line h => loadLine_short stod line h, fun students => ?_⟩
  · rw [loadFromFile_some]
    exact ⟨rfl, rfl⟩
  · have hbad : loadLine stod "STU|2|Bob".toList = none :=
      loadLine_short stod _ (by decide)
    have hgood : ∃ s, loadLine stod "STU|1|Ann||math:90".toList = some s := by
      rw [loadLine_of_parts stod "STU|1|Ann||math:90".toList "STU".toList "1".toList
        "Ann".toList [] "math:90".toList [] (by decide)]
      have h1 : stoi "1".toList = some 1 := by decide
      simp only [h1]
      split <;> exact ⟨_, rfl⟩
    obtain ⟨s, hs⟩ := hgood
    have hsplit1 : split "STU|1|Ann||math:90\nSTU|2|Bob\n".toList '\n'
        = ["STU|1|Ann||math:90".toList, "STU|2|Bob".toList] := by decide
    have hsplit2 : split "STU|2|Bob\nSTU|1|Ann||math:90\n".toList '\n'
        = ["STU|2|Bob".toList, "STU|1|Ann||math:90".toList] := by decide
    rw [loadFromFile_some, loadFromFile_some, hsplit1, hsplit2]
    simp only [List.filterMap_cons, hbad, hs, List.filterMap_nil, List.length_cons,
      List.length_nil, and_self]

/-- Counterexample to C5 as stated: the id field 12abc is not, as a whole, the
text of an integer, yet the line is not skipped: it loads as a record with
the id 12. -/
theorem C5_counterexample_trailing_text :
    isIntegerText "12abc".toList = false ∧
    (loadFromFile stodWhole (some "STU|12abc|Ann||math:90\n".toList) []).2
      = [{ name := "Ann".toList, id := 12, grades := [("math".toList, 90)],
           thesisTitle := none }] := by
  decide

/-- C5 (amended). Id parsing on load: for every line whose split on the bar
has at least 5 parts, the line gives a record exactly when `std::stoi` accepts
the second field, and the id of the record is the value `stoi` returns. The
call accepts exactly the fields made of white space, an optional sign, a run
of at least one digit and any text that does not continue the run, provided
the value of the signed run is an `int`, and it returns that value; so the
decimal text of every `int` is accepted with that value. -/
theorem C5_id_parsing {D : Type} (stod : Str → Option D) (line : Str)
    (type idText name extra gradesStr : Str) (more : List Str)
    (hparts : split line '|' = type :: idText :: name :: extra :: gradesStr :: more) :
    (∀ n : Int, (∃ s, loadLine stod line = some s ∧ s.getId = n) ↔ stoi idText = some n) ∧
    (loadLine stod line = none ↔ stoi idText = none) ∧
    (∀ n : Int, stoi idText = some n ↔
      ∃ (ws digits rest : Str) (sign : Option Char),
        idText = ws ++ sign.toList ++ digits ++ rest ∧
        (∀ c ∈ ws, isspace c = true) ∧
        (sign = none ∨ sign = some '-' ∨ sign = some '+') ∧
        digits ≠ [] ∧ (∀ c ∈ digits, isdigit c = true) ∧
        (∀ c, rest.head? = some c → isdigit c = false) ∧
        n = (if sign = some '-' then -(digitsValue 0 digits : Int)
              else (digitsValue 0 digits : Int)) ∧
        INT_MIN ≤ n ∧ n ≤ INT_MAX) ∧
    (∀ n : Int, INT_MIN ≤ n → n ≤ INT_MAX → stoi (showInt n) = some n) := by
  have hline := loadLine_of_parts stod line type idText name extra gradesStr more hparts
  refine ⟨fun n => ?_, ?_, fun n => stoi_eq_some_iff idText n, stoi_showInt⟩
  · rw [hline]
    cases hst : stoi idText with
    | none => simp
    | some id =>
      simp only [Option.some.injEq]
      by_cases ht : type = ['G', 'R', 'D']
      · simp only [ht, if_true, Option.some.injEq, exists_eq_left', Student.getId,
          (deserializeGrades_fields stod _ gradesStr).2.1]
        rfl
      · simp only [ht, if_false, Option.some.injEq, exists_eq_left', Student.getId,
          (deserializeGrades_fields stod _ gradesStr).2.1]
        rfl
  · rw [hline]
    cases hst : stoi idText with
    | none => simp
    | some id =>
      simp only
      split <;> simp

/-- Witness for C5: a line whose id field has white space, a sign, digits and
trailing text. -/
theorem C5_id_parsing_witness :
    (∃ s, loadLine stodWhole "GRD| -12abc|Bo|X|math:90".toList = some s ∧ s.getId = -12) ∧
    stoi " -12abc".toList = some (-12) := by
  have h := C5_id_parsing stodWhole "GRD| -12abc|Bo|X|math:90".toList "GRD".toList
    " -12abc".toList "Bo".toList "X".toList "math:90".toList [] (by decide)
  exact ⟨(h.1 (-12)).mpr (by decide), by decide⟩

/-- C6. Variant discrimination on load: for every line that `loadFromFile`
accepts, the record is a graduate student, with the fourth field as thesis
title, exactly when the first field is GRD; then `getType` is GRD and
`extraInfo` the fourth field. For every other first field the record is a
regular student: no thesis title, `getType` is STU and `extraInfo` is empty
whatever the fourth field holds. -/
theorem C6_variant_discrimination {D : Type} (stod : Str → Option D) (line : Str)
    (s : Student D) (h : loadLine stod line = some s) :
    ∃ (type idText name extra gradesStr : Str) (more : List Str),
      split line '|' = type :: idText :: name :: extra :: gradesStr :: more ∧
      (s.thesisTitle = some extra ↔ type = ['G', 'R', 'D']) ∧
      (type = ['G', 'R', 'D'] → s.getType = ['G', 'R', 'D'] ∧ s.extraInfo = extra) ∧
      (type ≠ ['G', 'R', 'D'] →
        s.thesisTitle = none ∧ s.getType = ['S', 'T', 'U'] ∧ s.extraInfo = []) := by
  have hlen : ¬ (split line '|').length < 5 := by
    intro hlt
    rw [loadLine_short stod line hlt] at h
    exact Option.noConfusion h
  obtain ⟨type, idText, name, extra, gradesStr, more, hparts⟩ :
      ∃ (type idText name extra gradesStr : Str) (more : List Str),
        split line '|' = type :: idText :: name :: extra :: gradesStr :: more := by
    match hsp : split line '|' with
    | [] => simp [hsp] at hlen
    | [_] => simp [hsp] at hlen
    | [_, _] => simp [hsp] at hlen
    | [_, _, _] => simp [hsp] at hlen
    | [_, _, _, _] => simp [hsp] at hlen
    | a :: b :: c :: d :: e :: more => exact ⟨a, b, c, d, e, more, rfl⟩
  refine ⟨type, idText, name, extra, gradesStr, more, hparts, ?_⟩
  rw [loadLine_of_parts stod line type idText name extra gradesStr more hparts] at h
  cases hst : stoi idText with
  | none => simp [hst] at h
  | some id =>
    simp only [hst] at h
    by_cases ht : type = ['G', 'R', 'D']
    · simp only [ht, if_true, Option.some.injEq] at h
      have hth : s.thesisTitle = some extra := by
        rw [← h, (deserializeGrades_fields stod _ gradesStr).2.2]
        rfl
      simp [ht, hth, Student.getType, Student.extraInfo]
    · simp only [ht, if_false, Option.some.injEq] at h
      have hth : s.thesisTitle = none := by
        rw [← h, (deserializeGrades_fields stod _ gradesStr).2.2]
        rfl
      simp [ht, hth, Student.getType, Student.extraInfo]

/-- Witness for C6: the line of the regular student of the format example. -/
theorem C6_variant_discrimination_witness :
    ∃ (type idText name extra gradesStr : Str) (more : List Str),
      split "STU|1|Ann||math:90".toList '|'
        = type :: idText :: name :: extra :: gradesStr :: more ∧
      (exampleAnn.thesisTitle = some extra ↔ type = ['G', 'R', 'D']) ∧
      (type = ['G', 'R', 'D'] →
        exampleAnn.getType = ['G', 'R', 'D'] ∧ exampleAnn.extraInfo = extra) ∧
      (type ≠ ['G', 'R', 'D'] →
        exampleAnn.thesisTitle = none ∧ exampleAnn.getType = ['S', 'T', 'U'] ∧
        exampleAnn.extraInfo = []) :=
  C6_variant_discrimination stodWhole "STU|1|Ann||math:90".toList exampleAnn (by decide)

/-- C7. Load replaces or leaves alone: when the file cannot be opened,
`loadFromFile` returns false and the roster is the prior one; when it can be
opened, `loadFromFile` returns true and the roster afterwards is the same
whatever the prior roster was (it is the roster loaded into an empty one). -/
theorem C7_load_replaces_or_leaves_alone {D : Type} (stod : Str → Option D) :
    (∀ students : List (Student D), loadFromFile stod none students = (false, students)) ∧
    (∀ (text : Str) (students1 students2 : List (Student D)),
      (loadFromFile stod (some text) students1).1 = true ∧
      loadFromFile stod (some text) students1 = loadFromFile stod (some text) students2 ∧
      loadFromFile stod (some text) students1 = loadFromFile stod (some text) []) := by
  refine ⟨fun students => rfl, fun text students1 students2 => ⟨rfl, rfl, rfl⟩⟩

/-- C8. Duplicate add is rejected atomically: when some record of the roster
has the id read, `addStudent` leaves the roster as it is (and reports the
cancellation); when no record has it, the roster afterwards is the prior
roster followed by the one new record, a regular student for kind 1 and a
graduate student otherwise. -/
theorem C8_duplicate_add_rejected {D : Type} (students : List (Student D)) (t : Int)
    (name : Str) (id : Int) (thesis : Str) :
    ((∃ s ∈ students, s.getId = id) →
      addStudent students t name id thesis = (students, Outcome.cancelled)) ∧
    ((∀ s ∈ students, s.getId ≠ id) →
      addStudent students t name id thesis
        = if t = 1 then (students ++ [Student.new name id], Outcome.regularAdded)
          else (students ++ [GraduateStudent.new name id thesis], Outcome.graduateAdded)) := by
  constructor
  · intro h
    have h1 : findIndexById students id ≠ -1 := by
      rw [Ne, findIndexById_eq_neg_one]
      obtain ⟨s, hs, hid⟩ := h
      exact fun hall => hall s hs hid
    simp [addStudent, h1]
  · intro h
    have h1 : findIndexById students id = -1 := (findIndexById_eq_neg_one students id).mpr h
    simp [addStudent, h1]

/-- C9. Lookup after adds: when `addStudent` is run from the empty roster on a
sequence of inputs with pairwise distinct ids, every run adds its record (the
roster is the sequence of the records, in input order), `findIndexById`
returns for the id of the k-th input the index k, and it returns -1 for every
id that is not among the inputs. -/
theorem C9_lookup_after_adds {D : Type} (inputs : List AddInput)
    (hdistinct : inputs.Pairwise (fun x y => x.id ≠ y.id)) :
    addStudents ([] : List (Student D)) inputs = inputs.map AddInput.record ∧
    (∀ (k : Nat) (hk : k < inputs.length),
      findIndexById (addStudents ([] : List (Student D)) inputs) (inputs.get ⟨k, hk⟩).id
        = (k : Int)) ∧
    (∀ id : Int, (∀ x ∈ inputs, x.id ≠ id) →
      findIndexById (addStudents ([] : List (Student D)) inputs) id = -1) := by
  have hroster : addStudents ([] : List (Student D)) inputs = inputs.map AddInput.record := by
    simpa using addStudents_distinct ([] : List (Student D)) inputs (by simp) hdistinct
  refine ⟨hroster, ?_, ?_⟩
  · intro k hk
    rw [hroster]
    have hk' : k < (inputs.map (AddInput.record : AddInput → Student D)).length := by
      simpa using hk
    apply findIndexById_of_first _ _ k hk'
    · simp [record_getId]
    · intro j hj hjk
      simp only [List.get_eq_getElem, List.getElem_map, record_getId]
      have hj' : j < inputs.length := by simpa using hj
      exact List.pairwise_iff_getElem.mp hdistinct j k hj' hk hjk
  · intro id hid
    rw [hroster, findIndexById_eq_neg_one]
    intro s hs
    obtain ⟨x, hx, rfl⟩ := List.mem_map.mp hs
    rw [record_getId]
    exact hid x hx

/-- Witness for C9: three adds with the ids 7, 3 and 5. -/
theorem C9_lookup_after_adds_witness :
    addStudents ([] : List (Student Int))
        [⟨1, ['A'], 7, []⟩, ⟨2, ['B'], 3, ['X']⟩, ⟨1, ['C'], 5, []⟩]
      = [Student.new ['A'] 7, GraduateStudent.new ['B'] 3 ['X'], Student.new ['C'] 5] ∧
    findIndexById (addStudents ([] : List (Student Int))
        [⟨1, ['A'], 7, []⟩, ⟨2, ['B'], 3, ['X']⟩, ⟨1, ['C'], 5, []⟩]) 5 = 2 ∧
    findIndexById (addStudents ([] : List (Student Int))
        [⟨1, ['A'], 7, []⟩, ⟨2, ['B'], 3, ['X']⟩, ⟨1, ['C'], 5, []⟩]) 4 = -1 := by
  have h := C9_lookup_after_adds (D := Int)
    [⟨1, ['A'], 7, []⟩, ⟨2, ['B'], 3, ['X']⟩, ⟨1, ['C'], 5, []⟩] (by decide)
  exact ⟨h.1, h.2.1 2 (by decide), h.2.2 4 (by decide)⟩

/-- Counterexample to C10 as stated: loading a file with two lines that carry
the id 1 gives a roster in which the id occurs, yet after `removeStudent` the
search for that id still finds a record (index 0) instead of reporting -1. -/
theorem C10_counterexample_repeated_id :
    (∃ s ∈ (loadFromFile stodWhole (some "STU|1|A||m:1\nSTU|1|B||m:2\n".toList) []).2,
        s.getId = 1) ∧
    findIndexById (removeStudent
        (loadFromFile stodWhole (some "STU|1|A||m:1\nSTU|1|B||m:2\n".toList) []).2 1).1 1
      = 0 := by
  decide

/-- C10 (amended). Remove of a present id: for every roster and every id that
occurs in it, `removeStudent` reports the removal and yields a roster whose
size is exactly one less; in that roster `findIndexById` returns -1 for the id
exactly when the id occurred once in the prior roster. -/
theorem C10_remove_present_id {D : Type} (students : List (Student D)) (id : Int)
    (h : ∃ s ∈ students, s.getId = id) :
    (removeStudent students id).2 = Outcome.removed ∧
    (removeStudent students id).1.length + 1 = students.length ∧
    (findIndexById (removeStudent students id).1 id = -1
      ↔ students.countP (fun s => decide (s.getId = id)) = 1) := by
  rw [removeStudent_present students id h]
  have hlt : students.findIdx (fun s => decide (s.getId = id)) < students.length := by
    obtain ⟨s, hs, hid⟩ := h
    exact List.findIdx_lt_length.mpr ⟨s, hs, by simpa using hid⟩
  refine ⟨rfl, ?_, ?_⟩
  · simp only [List.length_eraseIdx, hlt, if_true]
    omega
  · have hc := countP_eraseIdx_findIdx students id h
    rw [findIndexById_eq_neg_one]
    simp only at hc ⊢
    rw [← hc]
    simp only [add_left_eq_self, List.countP_eq_zero, decide_eq_true_eq]

/-- Witness for C10: removing the id 3 from a roster of three records. -/
theorem C10_remove_present_id_witness :
    (removeStudent ([Student.new ['A'] 7, GraduateStudent.new ['B'] 3 ['X'],
        Student.new ['C'] 5] : List (Student Int)) 3).1
      = [Student.new ['A'] 7, Student.new ['C'] 5] ∧
    (removeStudent ([Student.new ['A'] 7, GraduateStudent.new ['B'] 3 ['X'],
        Student.new ['C'] 5] : List (Student Int)) 3).1.length + 1 = 3 ∧
    findIndexById (removeStudent ([Student.new ['A'] 7, GraduateStudent.new ['B'] 3 ['X'],
        Student.new ['C'] 5] : List (Student Int)) 3).1 3 = -1 := by
  have h := C10_remove_present_id ([Student.new ['A'] 7, GraduateStudent.new ['B'] 3 ['X'],
    Student.new ['C'] 5] : List (Student Int)) 3 (by decide)
  exact ⟨by decide, h.2.1, h.2.2.mpr (by decide)⟩

/-- C11. Operations on an absent id are no-ops: when no record of the roster
carries the id, `removeStudent` and `addOrUpdateGrade` both report that the
student is not found and return the roster as it was. -/
theorem C11_absent_id_no_op {D : Type} (students : List (Student D)) (id : Int)
    (subject : Str) (grade : D) (h : ∀ s ∈ students, s.getId ≠ id) :
    removeStudent students id = (students, Outcome.notFound) ∧
    addOrUpdateGrade students id subject grade = (students, Outcome.notFound) := by
  have h1 : findIndexById students id = -1 := (findIndexById_eq_neg_one students id).mpr h
  simp [removeStudent, addOrUpdateGrade, h1]

/-- Witness for C11: the id 3 in the roster of the format example. -/
theorem C11_absent_id_no_op_witness :
    removeStudent [exampleAnn, exampleBo] 3 = ([exampleAnn, exampleBo], Outcome.notFound) ∧
    addOrUpdateGrade [exampleAnn, exampleBo] 3 "art".toList 75
      = ([exampleAnn, exampleBo], Outcome.notFound) :=
  C11_absent_id_no_op [exampleAnn, exampleBo] 3 "art".toList 75 (by decide)

/-- C12. Id uniqueness invariant: the roster reached from the empty roster by
any sequence of runs of `addStudent`, `removeStudent` and `addOrUpdateGrade`,
whatever their inputs, has pairwise distinct ids. -/
theorem C12_id_uniqueness_invariant {D : Type} (ops : List (RosterOp D)) :
    (runOps ([] : List (Student D)) ops).Pairwise (fun a b => a.getId ≠ b.getId) := by
  have h := runOps_distinct ([] : List (Student D)) ops List.nodup_nil
  exact (List.pairwise_map (l := runOps ([] : List (Student D)) ops)).mp h

/-- C13. Deserialize drop rules: `deserializeGrades` is defined on every
fragment. The empty fragment gives the empty map. Otherwise the map is built
from the items between commas, in order, by assignment: an item gives an entry
exactly when `split` cuts it on the colon into two pieces and `std::stod`
accepts the trimmed second piece; the subject is the trimmed first piece and
the grade the number read, and for a subject the grade of the last such item
stands. The result is a map with strictly ascending subjects. -/
theorem C13_deserialize_drop_rules {D : Type} (stod : Str → Option D) (self : Student D)
    (s : Str) :
    (self.deserializeGrades stod []).grades = [] ∧
    (self.deserializeGrades stod s).grades
      = ((split s ',').filterMap (itemEntry stod)).foldl
          (fun m kv => mapAssign m kv.1 kv.2) [] ∧
    WellFormedMap (self.deserializeGrades stod s).grades ∧
    (∀ k : Str, mapFind (self.deserializeGrades stod s).grades k
      = (((split s ',').filterMap (itemEntry stod)).reverse.find?
          (fun kv => decide (kv.1 = k))).map Prod.snd) ∧
    (∀ k : Str, (∃ g, mapFind (self.deserializeGrades stod s).grades k = some g) ↔
      ∃ it ∈ split s ',', ∃ (p0 p1 : Str) (g : D),
        split it ':' = [p0, p1] ∧ stod (trim p1) = some g ∧ trim p0 = k) := by
  have hfind : ∀ k : Str, mapFind (self.deserializeGrades stod s).grades k
      = (((split s ',').filterMap (itemEntry stod)).reverse.find?
          (fun kv => decide (kv.1 = k))).map Prod.snd := by
    intro k
    rw [deserializeGrades_eq, mapFind_foldl]
    cases ((split s ',').filterMap (itemEntry stod)).reverse.find?
      (fun kv => decide (kv.1 = k)) <;> rfl
  refine ⟨by simp [Student.deserializeGrades], deserializeGrades_eq stod self s,
    (grades_wellFormed stod self).2.2 s, hfind, ?_⟩
  intro k
  rw [hfind]
  constructor
  · rintro ⟨g, hg⟩
    obtain ⟨kv, hkv, -⟩ := Option.map_eq_some'.mp hg
    have hmem := List.mem_of_find?_eq_some hkv
    have hk : kv.1 = k := by simpa using List.find?_some hkv
    rw [List.mem_reverse, List.mem_filterMap] at hmem
    obtain ⟨it, hit, hentry⟩ := hmem
    refine ⟨it, hit, ?_⟩
    unfold itemEntry at hentry
    split at hentry
    · rename_i p0 p1 hsp
      obtain ⟨g', hg', hkv'⟩ := Option.map_eq_some'.mp hentry
      refine ⟨p0, p1, g', hsp, hg', ?_⟩
      rw [← hk, ← hkv']
    · exact Option.noConfusion hentry
  · rintro ⟨it, hit, p0, p1, g, hsp, hg, hk⟩
    have hentry : itemEntry stod it = some (k, g) := by
      simp [itemEntry, hsp, hg, hk]
    have hmem : (k, g) ∈ ((split s ',').filterMap (itemEntry stod)).reverse := by
      rw [List.mem_reverse, List.mem_filterMap]
      exact ⟨it, hit, hentry⟩
    cases hf : ((split s ',').filterMap (itemEntry stod)).reverse.find?
        (fun kv => decide (kv.1 = k)) with
    | some kv => exact ⟨kv.2, rfl⟩
    | none =>
      have := List.find?_eq_none.mp hf (k, g) hmem
      simp at this

/-- C14. Serialize order is deterministic: `serializeGrades` writes the entries
of the map as subject, colon, grade, joined by commas, in the order of the
map; the empty map gives the empty text. A map built by calls of `addGrade`
from a new record has its subjects in strictly ascending order, so two
sequences of calls that end with the same grade, or none, for every subject
end with the same entries and the same text, whatever the order of the
calls. -/
theorem C14_serialize_order_deterministic {D : Type} (showDouble : D → Str) :
    (∀ self : Student D,
      self.serializeGrades showDouble
        = List.intercalate [','] (self.grades.map (fun kv => kv.1 ++ [':'] ++ showDouble kv.2))) ∧
    (∀ self : Student D, self.grades = [] → self.serializeGrades showDouble = []) ∧
    (∀ (name : Str) (id : Int) (calls : List (Str × D)),
      (addGrades (Student.new name id) calls).grades.Pairwise
        (fun a b => strLt a.1 b.1 = true)) ∧
    (∀ (name1 name2 : Str) (id1 id2 : Int) (calls1 calls2 : List (Str × D)),
      (∀ k : Str, mapFind (addGrades (Student.new name1 id1) calls1).grades k
        = mapFind (addGrades (Student.new name2 id2) calls2).grades k) →
      (addGrades (Student.new name1 id1) calls1).grades
        = (addGrades (Student.new name2 id2) calls2).grades ∧
      (addGrades (Student.new name1 id1) calls1).serializeGrades showDouble
        = (addGrades (Student.new name2 id2) calls2).serializeGrades showDouble) ∧
    (addGrades (Student.new [] 0) [("sci".toList, 90), ("math".toList, 80)]).serializeGrades
        showWhole = "math:80,sci:90".toList ∧
    (addGrades (Student.new [] 0)
        [("math".toList, 1), ("math".toList, 80), ("sci".toList, 90)]).serializeGrades
        showWhole = "math:80,sci:90".toList := by
  refine ⟨serializeGrades_eq_intercalate showDouble, ?_, ?_, ?_, by decide, by decide⟩
  · intro self h
    simp [Student.serializeGrades, h, serializeLoop]
  · intro name id calls
    exact addGrades_wellFormed (Student.new name id) calls List.Pairwise.nil
  · intro name1 name2 id1 id2 calls1 calls2 h
    have heq := wellFormed_ext _ _
      (addGrades_wellFormed (Student.new name1 id1 : Student D) calls1 List.Pairwise.nil)
      (addGrades_wellFormed (Student.new name2 id2 : Student D) calls2 List.Pairwise.nil) h
    refine ⟨heq, ?_⟩
    unfold Student.serializeGrades
    rw [heq]

/-- C15. Last write wins, with frame: after `addGrade(s, g)` on a map, the map
holds the grade `g` for `s` in exactly one entry, holds for every other subject
what it held before, and is still a map; the number of entries has grown by
one when `s` had no entry and is the same when it had one. -/
theorem C15_last_write_wins {D : Type} (self : Student D) (s : Str) (g : D)
    (hwf : WellFormedMap self.grades) :
    mapFind (self.addGrade s g).grades s = some g ∧
    (self.addGrade s g).grades.countP (fun kv => decide (kv.1 = s)) = 1 ∧
    (∀ k : Str, k ≠ s → mapFind (self.addGrade s g).grades k = mapFind self.grades k) ∧
    (mapFind self.grades s = none →
      (self.addGrade s g).grades.length = self.grades.length + 1) ∧
    (mapFind self.grades s ≠ none →
      (self.addGrade s g).grades.length = self.grades.length) ∧
    WellFormedMap (self.addGrade s g).grades ∧
    (self.addGrade s g).name = self.name ∧ (self.addGrade s g).id = self.id ∧
    (self.addGrade s g).thesisTitle = self.thesisTitle := by
  have hfind : mapFind (mapAssign self.grades s g) s = some g := by
    rw [mapFind_mapAssign]
    simp
  have hwf' := mapAssign_wellFormed self.grades s g hwf
  have hlen := length_mapAssign self.grades s g hwf
  refine ⟨hfind, ?_, ?_, ?_, ?_, hwf', rfl, rfl, rfl⟩
  · have hle := countP_key_le_one (mapAssign self.grades s g) s hwf'
    have hpos : 0 < (mapAssign self.grades s g).countP (fun kv => decide (kv.1 = s)) := by
      rw [List.countP_pos_iff]
      exact ⟨(s, g), mem_of_mapFind _ s g hfind, by simp⟩
    show (mapAssign self.grades s g).countP (fun kv => decide (kv.1 = s)) = 1
    omega
  · intro k hk
    show mapFind (mapAssign self.grades s g) k = mapFind self.grades k
    rw [mapFind_mapAssign, if_neg (fun e : s = k => hk e.symm)]
  · intro hnone
    show (mapAssign self.grades s g).length = self.grades.length + 1
    rw [hlen, hnone]
    rfl
  · intro hsome
    show (mapAssign self.grades s g).length = self.grades.length
    rw [hlen, if_pos (Option.ne_none_iff_isSome.mp hsome)]

/-- Witness for C15: a new grade for math and a first grade for art on the
regular student of the format example. -/
theorem C15_last_write_wins_witness :
    (exampleAnn.addGrade "math".toList 70).grades = [("math".toList, 70)] ∧
    (exampleAnn.addGrade "art".toList 75).grades
      = [("art".toList, 75), ("math".toList, 90)] ∧
    mapFind (exampleAnn.addGrade "art".toList 75).grades "art".toList = some 75 ∧
    (exampleAnn.addGrade "art".toList 75).grades.length = exampleAnn.grades.length + 1 := by
  have h := C15_last_write_wins exampleAnn "art".toList 75 (by decide)
  exact ⟨by decide, by decide, h.1, h.2.2.2.1 (by decide)⟩

/-- C16. Average: for the empty grade map `average` returns 0.0; for every
other grade map it returns the sum of the grades, added up from 0.0 in the
order of the map, divided by the number of subjects, which is not zero. For
the grades math -> 80 and sci -> 90 the result is 85: in exact arithmetic,
and for every arithmetic in which 0.0 + 80 is 80, 80 + 90 is 170 and 170 / 2
is 85, as it is for `double`. -/
theorem C16_average {D : Type} (zero : D) (add : D → D → D) (divSize : D → Nat → D) :
    (∀ self : Student D, self.grades = [] → self.average zero add divSize = zero) ∧
    (∀ self : Student D, self.grades ≠ [] →
      self.average zero add divSize
        = divSize ((self.grades.map Prod.snd).foldl add zero) self.grades.length ∧
      self.grades.length ≠ 0) ∧
    (∀ g80 g90 g170 g85 : D, add zero g80 = g80 → add g80 g90 = g170 →
      divSize g170 2 = g85 →
      Student.average zero add divSize
        ((Student.new [] 0).addGrade "sci".toList g90 |>.addGrade "math".toList g80) = g85) ∧
    Student.average (0 : ℚ) (fun x y => x + y) (fun x n => x / (n : ℚ))
        ((Student.new [] 0).addGrade "sci".toList 90 |>.addGrade "math".toList 80) = 85 := by
  have hex : ∀ (E : Type) (z : E) (a : E → E → E) (d : E → Nat → E) (g80 g90 : E),
      Student.average z a d
          ((Student.new [] 0).addGrade "sci".toList g90 |>.addGrade "math".toList g80)
        = d (a (a z g80) g90) 2 := by
    intro E z a d g80 g90
    have hgr : ((Student.new [] 0 : Student E).addGrade "sci".toList g90
        |>.addGrade "math".toList g80).grades
        = [("math".toList, g80), ("sci".toList, g90)] := by
      have hlt : strLt "math".toList "sci".toList = true := by decide
      simp only [Student.addGrade, Student.new, mapAssign, hlt, if_true]
    simp only [Student.average, hgr, List.isEmpty_cons, Bool.false_eq_true, if_false,
      averageLoop, List.length_cons, List.length_nil]
  refine ⟨?_, ?_, ?_, ?_⟩
  · intro self h
    simp [Student.average, h]
  · intro self h
    obtain ⟨kv, rest, hgr⟩ := List.exists_cons_of_ne_nil h
    refine ⟨?_, by simp [hgr]⟩
    simp only [Student.average, hgr, List.isEmpty_cons, Bool.false_eq_true, if_false,
      averageLoop_eq_foldl]
  · intro g80 g90 g170 g85 h1 h2 h3
    rw [hex D zero add divSize g80 g90, h1, h2, h3]
  · rw [hex ℚ 0 (fun x y => x + y) (fun x n => x / (n : ℚ)) 80 90]
    norm_num

/-- C17. Load is a per-line map with no duplicate-id check: the loaded roster
is made of one record for every accepted line of the text, in file order; a
line is accepted exactly when it is not empty, splits on the bar into at
least 5 parts and has a second part that `std::stoi` accepts; its record
depends on the first five parts only. Two accepted lines give two records
whatever their ids are, so a file with two lines of id 1 loads as a roster
that holds the id 1 twice. -/
theorem C17_load_per_line_no_duplicate_check {D : Type} (stod : Str → Option D) :
    (∀ (text : Str) (students : List (Student D)),
      (loadFromFile stod (some text) students).2
        = (split text '\n').filterMap (loadLine stod)) ∧
    (∀ line : Str, (∃ r, loadLine stod line = some r) ↔
      line ≠ [] ∧ 5 ≤ (split line '|').length ∧
        ∃ id, stoi ((split line '|').getD 1 []) = some id) ∧
    (∀ line1 line2 : Str, (split line1 '|').take 5 = (split line2 '|').take 5 →
      loadLine stod line1 = loadLine stod line2) ∧
    (∀ (line1 line2 : Str) (r1 r2 : Student D) (students : List (Student D)),
      '\n' ∉ line1 → '\n' ∉ line2 →
      loadLine stod line1 = some r1 → loadLine stod line2 = some r2 →
      (loadFromFile stod (some (line1 ++ ['\n'] ++ line2 ++ ['\n'])) students).2 = [r1, r2]) ∧
    ((loadFromFile stodWhole (some "STU|1|A||m:1\nGRD|1|B|T|m:2\n".toList) []).2.map
      Student.getId = [1, 1]) := by
  refine ⟨fun text students => ?_, loadLine_isSome_iff stod, loadLine_first_five stod, ?_,
    by decide⟩
  · rw [loadFromFile_some]
  · intro line1 line2 r1 r2 students hn1 hn2 h1 h2
    rw [loadFromFile_some]
    have hsplit : split (line1 ++ ['\n'] ++ line2 ++ ['\n']) '\n' = [line1, line2] := by
      rw [List.append_assoc, List.append_assoc, List.singleton_append,
        split_append_delim '\n' line1 _ hn1, split_append_delim '\n' line2 _ hn2, split_nil]
    rw [hsplit]
    simp [List.filterMap_cons, h1, h2]

/-- C18. Remove keeps the rest in order: for every roster and every id that
occurs in it, the roster is some records without the id, then the first
record with the id, then the remaining records, and `removeStudent` returns
the same sequence without that one record: every other record is as it was
and in the same order. -/
theorem C18_remove_keeps_order {D : Type} (students : List (Student D)) (id : Int)
    (h : ∃ s ∈ students, s.getId = id) :
    ∃ (pre : List (Student D)) (s : Student D) (post : List (Student D)),
      students = pre ++ s :: post ∧ s.getId = id ∧ (∀ x ∈ pre, x.getId ≠ id) ∧
      removeStudent students id = (pre ++ post, Outcome.removed) := by
  have hp : ∃ x ∈ students, (fun s : Student D => decide (s.getId = id)) x = true := by
    obtain ⟨s, hs, hid⟩ := h
    exact ⟨s, hs, by simpa using hid⟩
  obtain ⟨pre, s, post, hl, hs, hpre, -, herase⟩ :=
    eraseIdx_findIdx_split (fun s : Student D => decide (s.getId = id)) students hp
  refine ⟨pre, s, post, hl, by simpa using hs, ?_, ?_⟩
  · intro x hx
    simpa using hpre x hx
  · rw [removeStudent_present students id h, herase]

/-- Witness for C18: removing the id 2 from a roster in which it occurs twice. -/
theorem C18_remove_keeps_order_witness :
    ∃ (pre : List (Student Int)) (s : Student Int) (post : List (Student Int)),
      [exampleAnn, exampleBo, Student.new ['C'] 2] = pre ++ s :: post ∧ s.getId = 2 ∧
      (∀ x ∈ pre, x.getId ≠ 2) ∧
      removeStudent [exampleAnn, exampleBo, Student.new ['C'] 2] 2
        = (pre ++ post, Outcome.removed) :=
  C18_remove_keeps_order [exampleAnn, exampleBo, Student.new ['C'] 2] 2 (by decide)

/-- C19. `findIndexById` is a safe first-match search: the result is -1 exactly
when no record carries the id; otherwise it is an index of the roster, the
record at that index carries the id and no record before it does. So in
`removeStudent` and `addOrUpdateGrade`, whenever the result is not -1, the
index used for `students[idx]` is at least 0 and below the size of the
roster. -/
theorem C19_findIndexById_first_match {D : Type} (students : List (Student D)) (id : Int) :
    (findIndexById students id = -1 ↔ ∀ s ∈ students, s.getId ≠ id) ∧
    (findIndexById students id ≠ -1 →
      ∃ (i : Nat) (hi : i < students.length),
        findIndexById students id = (i : Int) ∧
        (students.get ⟨i, hi⟩).getId = id ∧
        ∀ (j : Nat) (hj : j < students.length), j < i → (students.get ⟨j, hj⟩).getId ≠ id) ∧
    (findIndexById students id ≠ -1 →
      0 ≤ findIndexById students id ∧
      (findIndexById students id).toNat < students.length ∧
      ((findIndexById students id).toNat : Int) = findIndexById students id) := by
  have hfirst : findIndexById students id ≠ -1 →
      ∃ (i : Nat) (hi : i < students.length),
        findIndexById students id = (i : Int) ∧
        (students.get ⟨i, hi⟩).getId = id ∧
        ∀ (j : Nat) (hj : j < students.length), j < i →
          (students.get ⟨j, hj⟩).getId ≠ id := by
    intro hne
    obtain ⟨heq, hlt⟩ := findIndexById_bounds students id hne
    refine ⟨students.findIdx (fun s => decide (s.getId = id)), hlt, heq, ?_, ?_⟩
    · have := @List.findIdx_getElem _ (fun s : Student D => decide (s.getId = id))
        students hlt
      simpa using this
    · intro j hj hji
      have := @List.not_of_lt_findIdx _ (fun s : Student D => decide (s.getId = id))
        students j hji
      simpa using this
  refine ⟨findIndexById_eq_neg_one students id, hfirst, ?_⟩
  intro hne
  obtain ⟨i, hi, heq, -, -⟩ := hfirst hne
  rw [heq]
  exact ⟨by omega, by simpa using hi, by simp⟩

/-- C20. The function `split` drops one trailing empty field: no piece holds the
delimiter; the empty text gives no piece; a text that is not empty and does
not end with the delimiter gives one piece more than it has delimiters, and
the pieces joined by the delimiter are the text; a text that ends with the
delimiter gives as many pieces as it has delimiters, and the pieces joined by
the delimiter are the text without its last delimiter. -/
theorem C20_split_drops_trailing_empty_field (s : Str) (d : Char) :
    (∀ p ∈ split s d, d ∉ p) ∧
    (s = [] → split s d = []) ∧
    (s ≠ [] → s.getLast? ≠ some d →
      (split s d).length = s.count d + 1 ∧ List.intercalate [d] (split s d) = s) ∧
    (s.getLast? = some d →
      (split s d).length = s.count d ∧ List.intercalate [d] (split s d) = s.dropLast) := by
  obtain ⟨h1, h2, h3⟩ := split_pieces d s.length s (Nat.le_refl _)
  refine ⟨h1, ?_, h2, h3⟩
  intro hs
  rw [hs, split_nil]

end StudentGradeManager
